import Mathlib

/-!
# cmass registry server (`server.go`): a shallow embedding

The server keeps one process-wide slice `robots []Robot`.  Every function of
`server.go` that reads or writes it is embedded here as a pure function that
takes the slice (a `List Robot`) and, where the source writes it, returns the
new slice.  The clock `time.Now().Unix()` is an explicit argument `now : Int`.
For the registry and the read endpoints Go strings are embedded as Lean
`String`s; for `save` and `load`, where `encoding/json` looks at the bytes, they
are lists of bytes, and the file is an explicit argument.  `pdebug` only prints
and is left out.
-/

set_option autoImplicit false

namespace Cmass

/-! ## Data model -/

/-- Record `Robot` of `server.go`: seven string fields. -/
structure Robot where
  Name : String
  User : String
  IP : String
  X : String
  Y : String
  Alive : String
  LastAlive : String
  deriving DecidableEq, Repr

/-- Type `url.Values` (`map[string][]string`), as an association list whose
first binding of a key is the map's binding. -/
abbrev Values := List (String × List String)

/-- Method `url.Values.Get`: the first value bound to `key`, or `""` when the
key is absent or bound to no value. -/
def Values.Get (v : Values) (key : String) : String :=
  match v.lookup key with
  | some (x :: _) => x
  | _ => ""

/-- The query of `/update?name=..&user=..&x=..&y=..`. -/
def mkQuery (name user x y : String) : Values :=
  [("name", [name]), ("user", [user]), ("x", [x]), ("y", [y])]

/-- Variable `aliveTimeout` of `server.go`. -/
def aliveTimeout : Int := 10

/-! ## The parts of `strconv` and `strings` that `server.go` calls -/

/-- Two's-complement wrap of an integer to `int64`. -/
def wrap64 (z : Int) : Int := (z + 2 ^ 63) % 2 ^ 64 - 2 ^ 63

/-- Function `strconv.FormatInt(i, 10)`: the decimal digits, after a `-` when
negative. -/
def FormatInt (i : Int) : String :=
  if i < 0 then "-" ++ Nat.repr i.natAbs else Nat.repr i.natAbs

/-- Function `strconv.FormatBool`. -/
def FormatBool (b : Bool) : String := if b then "true" else "false"

/-- Errors of `strconv.ParseUint` and `strconv.ParseInt`. -/
inductive NumError where
  | ErrSyntax
  | ErrRange
  deriving DecidableEq, Repr

/-- Largest `uint64`. -/
def maxUint64 : Nat := 2 ^ 64 - 1

/-- Digit loop of `strconv.ParseUint(s, 10, 64)`: `n` is the value read so far. -/
def parseUintLoop : Nat → List Char → Nat × Option NumError
  | n, [] => (n, none)
  | n, c :: cs =>
    if '0' ≤ c ∧ c ≤ '9' then
      let d := c.toNat - '0'.toNat
      if n ≥ maxUint64 / 10 + 1 then (maxUint64, some NumError.ErrRange)
      else
        let n1 := n * 10 + d
        if n1 > maxUint64 then (maxUint64, some NumError.ErrRange)
        else parseUintLoop n1 cs
    else (0, some NumError.ErrSyntax)

/-- Function `strconv.ParseUint(s, 10, 64)`. -/
def ParseUint (s : List Char) : Nat × Option NumError :=
  match s with
  | [] => (0, some NumError.ErrSyntax)
  | _ => parseUintLoop 0 s

/-- Function `strconv.ParseInt(s, 10, 64)`: value and error. -/
def ParseInt (s : String) : Int × Option NumError :=
  match s.data with
  | [] => (0, some NumError.ErrSyntax)
  | c :: cs =>
    let neg := decide (c = '-')
    let body := if c = '+' ∨ c = '-' then cs else c :: cs
    match ParseUint body with
    | (_, some NumError.ErrSyntax) => (0, some NumError.ErrSyntax)
    | (un, _) =>
      let cutoff : Nat := 2 ^ 63
      if !neg ∧ un ≥ cutoff then ((cutoff : Int) - 1, some NumError.ErrRange)
      else if neg ∧ un > cutoff then (-(cutoff : Int), some NumError.ErrRange)
      else (if neg then wrap64 (-(wrap64 un)) else wrap64 un, none)

/-- Function `strings.HasSuffix`. -/
def HasSuffix (s suffix : String) : Bool :=
  decide (s.data.length ≥ suffix.data.length) &&
    decide (s.data.drop (s.data.length - suffix.data.length) = suffix.data)

/-- Function `strings.TrimSuffix`. -/
def TrimSuffix (s suffix : String) : String :=
  if HasSuffix s suffix then ⟨s.data.take (s.data.length - suffix.data.length)⟩ else s

/-! ## Registry update -/

/-- Function `addRobot`: append the record of a report to `robots`. -/
def addRobot (query : Values) (addr : String) (now : Int) (robots : List Robot) :
    List Robot :=
  let bot : Robot :=
    { Name := query.Get "name"
      User := query.Get "user"
      IP := addr
      X := query.Get "x"
      Y := query.Get "y"
      Alive := "true"
      LastAlive := FormatInt now }
  robots ++ [bot]

/-- Body of the `if` of `updateRobot` (lines 173-181), the seven assignments to
`robots[i]` in source order, the dead store to `LastAlive` included. -/
def updateFound (query : Values) (addr : String) (now : Int) (r : Robot) : Robot :=
  let r := { r with User := query.Get "user" }
  let r := { r with IP := addr }
  let r := { r with X := query.Get "x" }
  let r := { r with Y := query.Get "y" }
  let oldTime := (ParseInt r.LastAlive).1
  let newTime := now
  let r := { r with LastAlive := FormatBool (decide (wrap64 (newTime - oldTime) < aliveTimeout)) }
  let r := { r with LastAlive := FormatInt newTime }
  r

/-- Loop of `updateRobot` (lines 171-186): `some` of the new slice when a record
named `query.Get "name"` is met (the loop returns there), `none` when the loop
runs to its end. -/
def updateLoop (query : Values) (addr : String) (now : Int) :
    List Robot → Option (List Robot)
  | [] => none
  | bot :: rest =>
    if bot.Name = query.Get "name" then
      some (updateFound query addr now bot :: rest)
    else
      (updateLoop query addr now rest).map (fun rest1 => bot :: rest1)

/-- Function `updateRobot`: the response string and the new `robots`. -/
def updateRobot (query : Values) (addr : String) (now : Int) (robots : List Robot) :
    String × List Robot :=
  match updateLoop query addr now robots with
  | some robots1 => ("updated " ++ query.Get "name", robots1)
  | none => ("Added " ++ query.Get "name", addRobot query addr now robots)

/-- One `/update` request as the registry sees it: query, remote address and
the clock value read while serving it. -/
structure Report where
  query : Values
  addr : String
  now : Int

/-- The registry after serving the reports in order, from `robots`. -/
def runFrom (robots : List Robot) (reports : List Report) : List Robot :=
  reports.foldl (fun rs r => (updateRobot r.query r.addr r.now rs).2) robots

/-- The registry after serving the reports in order, from the empty registry. -/
def run (reports : List Report) : List Robot := runFrom [] reports

/-! ## Read endpoints -/

/-- Function `hostsJSON`. -/
def hostsJSON (robots : List Robot) : String :=
  let ret := robots.foldl
    (fun ret bot => (ret ++ ("\"" ++ bot.Name ++ "\":")) ++ ("\"" ++ bot.IP ++ "\",")) "\x7b"
  TrimSuffix ret "," ++ "\x7d"

/-- Function `hostsAliveJSON`. -/
def hostsAliveJSON (robots : List Robot) : String :=
  let ret := robots.foldl
    (fun ret bot =>
      if bot.Alive = "true" then
        (ret ++ ("\"" ++ bot.Name ++ "\":")) ++ ("\"" ++ bot.IP ++ "\",")
      else ret) "\x7b"
  TrimSuffix ret "," ++ "\x7d"

/-- The name and address that each iteration of the loop of `hostsJSON`
writes, in the order written. -/
def hostsJSONEntries (robots : List Robot) : List (String × String) :=
  robots.foldl (fun acc bot => acc ++ [(bot.Name, bot.IP)]) []

/-- The name and address that each iteration of the loop of `hostsAliveJSON`
writes, in the order written. -/
def hostsAliveJSONEntries (robots : List Robot) : List (String × String) :=
  robots.foldl
    (fun acc bot => if bot.Alive = "true" then acc ++ [(bot.Name, bot.IP)] else acc) []

/-- One entry of the output as the specification words it: name and address,
each in double quotes, joined by a colon. -/
def entryText (e : String × String) : String :=
  "\"" ++ e.1 ++ "\"" ++ ":" ++ "\"" ++ e.2 ++ "\""

/-- The output as the specification words it: the entries separated by single
commas, between braces. -/
def objectText (entries : List (String × String)) : String :=
  "\x7b" ++ String.intercalate "," (entries.map entryText) ++ "\x7d"

/-- Number of distinct names among the records. -/
def distinctNames (robots : List Robot) : Nat :=
  ((robots.map Robot.Name).dedup).length

/-! ## Text rendering -/

/-- Method `Robot.String`. -/
def Robot.String (bot : Robot) : String :=
  let ret := ""
  let ret := ret ++ (bot.Name ++ "\n")
  let ret := ret ++ ("\t" ++ "User: " ++ bot.User ++ "\n")
  let ret := ret ++ ("\t" ++ "IP: " ++ bot.IP ++ "\n")
  let ret := ret ++ ("\t" ++ "Coordinates: (" ++ bot.X ++ ", " ++ bot.Y ++ ")\n")
  let ret := ret ++ ("\t" ++ "Alive: " ++ bot.Alive ++ "\n")
  let ret := ret ++ ("\t" ++ "Time Last Alive: " ++ bot.LastAlive ++ "\n")
  ret

/-- Function `textFull`. -/
def textFull (robots : List Robot) : String :=
  robots.foldl (fun ret bot => ret ++ bot.String) ""

/-- The block of one record as the specification words it: the name and a
newline, then five lines, each after a tab and ended by a newline. -/
def blockText (bot : Robot) : String :=
  String.join
    [bot.Name, "\n",
     "\tUser: ", bot.User, "\n",
     "\tIP: ", bot.IP, "\n",
     "\tCoordinates: (", bot.X, ", ", bot.Y, ")", "\n",
     "\tAlive: ", bot.Alive, "\n",
     "\tTime Last Alive: ", bot.LastAlive, "\n"]

/-! ## Persistence: the parts of `unicode/utf8` and `encoding/json` that `save` and `load` call

A Go string is a sequence of bytes, which need not be valid UTF-8; the query of a
request can put any bytes in a field.  `encoding/json` works on these bytes, so
this part of the embedding holds a string as the list of its bytes. -/

/-- The bytes of an ASCII literal of the Go source. -/
def ascii (s : String) : List Nat := s.data.map Char.toNat

/-- Constant `utf8.RuneError`, the replacement character U+FFFD. -/
def RuneError : Nat := 0xFFFD

/-- Function `utf8.EncodeRune`: the bytes written for the rune `r`. -/
def EncodeRune (r : Nat) : List Nat :=
  if r ≤ 0x7F then [r]
  else if r ≤ 0x7FF then [0xC0 + r / 64, 0x80 + r % 64]
  else if r > 0x10FFFF ∨ (0xD800 ≤ r ∧ r ≤ 0xDFFF) then [0xEF, 0xBF, 0xBD]
  else if r ≤ 0xFFFF then [0xE0 + r / 4096, 0x80 + r / 64 % 64, 0x80 + r % 64]
  else [0xF0 + r / 262144, 0x80 + r / 4096 % 64, 0x80 + r / 64 % 64, 0x80 + r % 64]

/-- Function `utf8.DecodeRune`: the first rune of `p` and its width in bytes;
`(RuneError, 1)` for a byte that starts no valid encoding, `(RuneError, 0)` for
the empty input. -/
def DecodeRune : List Nat → Nat × Nat
  | [] => (RuneError, 0)
  | p0 :: rest =>
    if p0 < 0x80 then (p0, 1)
    else if p0 < 0xC2 ∨ 0xF4 < p0 then (RuneError, 1)
    else
      let sz := if p0 < 0xE0 then 2 else if p0 < 0xF0 then 3 else 4
      let lo := if p0 = 0xE0 then 0xA0 else if p0 = 0xF0 then 0x90 else 0x80
      let hi := if p0 = 0xED then 0x9F else if p0 = 0xF4 then 0x8F else 0xBF
      if rest.length + 1 < sz then (RuneError, 1)
      else
        match rest with
        | [] => (RuneError, 1)
        | b1 :: rest1 =>
          if b1 < lo ∨ hi < b1 then (RuneError, 1)
          else if sz ≤ 2 then (p0 % 32 * 64 + b1 % 64, 2)
          else
            match rest1 with
            | [] => (RuneError, 1)
            | b2 :: rest2 =>
              if b2 < 0x80 ∨ 0xBF < b2 then (RuneError, 1)
              else if sz ≤ 3 then (p0 % 16 * 4096 + b1 % 64 * 64 + b2 % 64, 3)
              else
                match rest2 with
                | [] => (RuneError, 1)
                | b3 :: _ =>
                  if b3 < 0x80 ∨ 0xBF < b3 then (RuneError, 1)
                  else (p0 % 8 * 262144 + b1 % 64 * 4096 + b2 % 64 * 64 + b3 % 64, 4)

/-- The Go string that holds the text `s`: its UTF-8 encoding. -/
def goString (s : String) : List Nat := s.data.flatMap (fun c => EncodeRune c.toNat)

/-- Record `Robot` as `encoding/json` meets it: every field is the bytes of a Go
string. -/
structure RawRobot where
  Name : List Nat
  User : List Nat
  IP : List Nat
  X : List Nat
  Y : List Nat
  Alive : List Nat
  LastAlive : List Nat
  deriving DecidableEq, Repr

/-- The record of the registry with its fields as Go strings. -/
def Robot.raw (r : Robot) : RawRobot :=
  { Name := goString r.Name, User := goString r.User, IP := goString r.IP,
    X := goString r.X, Y := goString r.Y, Alive := goString r.Alive,
    LastAlive := goString r.LastAlive }

/-! ### Encoding (`json.Marshal` on `[]Robot`) -/

/-- Table `hex` of `encoding/json`: the digit of `0123456789abcdef` at index `n`. -/
def hex (n : Nat) : Nat := if n < 10 then 0x30 + n else 0x57 + n

/-- Table `htmlSafeSet`: the ASCII bytes written as they are, that is all from
the space on but the double quote, the backslash, `<`, `>` and `&`. -/
def htmlSafeSet (b : Nat) : Bool :=
  decide (0x20 ≤ b ∧ b < 0x80 ∧ b ≠ 0x22 ∧ b ≠ 0x5C ∧ b ≠ 0x3C ∧ b ≠ 0x3E ∧ b ≠ 0x26)

/-- Loop of `encodeState.string` with `escapeHTML` set, one iteration for each
unit of fuel: the bytes written for the rest `s` of the string. -/
def stringLoop : Nat → List Nat → List Nat
  | 0, _ => []
  | _ + 1, [] => []
  | fuel + 1, b :: rest =>
    if b < 0x80 then
      if htmlSafeSet b then b :: stringLoop fuel rest
      else
        (0x5C ::
          (if b = 0x5C ∨ b = 0x22 then [b]
           else if b = 0x0A then [0x6E]
           else if b = 0x0D then [0x72]
           else if b = 0x09 then [0x74]
           else [0x75, 0x30, 0x30, hex (b / 16), hex (b % 16)])) ++ stringLoop fuel rest
    else
      let c := (DecodeRune (b :: rest)).1
      let size := (DecodeRune (b :: rest)).2
      if c = RuneError ∧ size = 1 then
        [0x5C, 0x75, 0x66, 0x66, 0x66, 0x64] ++ stringLoop fuel rest
      else if c = 0x2028 ∨ c = 0x2029 then
        [0x5C, 0x75, 0x32, 0x30, 0x32, hex (c % 16)] ++
          stringLoop fuel ((b :: rest).drop size)
      else (b :: rest).take size ++ stringLoop fuel ((b :: rest).drop size)

/-- Method `encodeState.string`: the JSON string literal of the Go string `s`. -/
def encodeString (s : List Nat) : List Nat :=
  [0x22] ++ stringLoop s.length s ++ [0x22]

/-- The struct encoder on a `Robot`: the fields in declaration order. -/
def encodeRobot (r : RawRobot) : List Nat :=
  ascii "\x7b\"Name\":" ++ encodeString r.Name ++
  ascii ",\"User\":" ++ encodeString r.User ++
  ascii ",\"IP\":" ++ encodeString r.IP ++
  ascii ",\"X\":" ++ encodeString r.X ++
  ascii ",\"Y\":" ++ encodeString r.Y ++
  ascii ",\"Alive\":" ++ encodeString r.Alive ++
  ascii ",\"LastAlive\":" ++ encodeString r.LastAlive ++
  ascii "\x7d"

/-- Loop of the array encoder from index `i`: a comma before every element but
the first. -/
def encodeElems : Nat → List RawRobot → List Nat
  | _, [] => []
  | i, r :: rs => (if i > 0 then [0x2C] else []) ++ encodeRobot r ++ encodeElems (i + 1) rs

/-- Function `json.Marshal` on `robots`: `null` for the nil slice, which the
empty list stands for, and the array of the records otherwise. -/
def Marshal (robots : List RawRobot) : List Nat :=
  match robots with
  | [] => ascii "null"
  | _ => [0x5B] ++ encodeElems 0 robots ++ [0x5D]

/-! ### Decoding (`json.Unmarshal` into `*[]Robot`)

`json.Unmarshal` first checks the whole input against the JSON grammar and
stores nothing when the check fails; then it stores the values, and goes on
after a value of the wrong type, keeping the first such error.  Here the check
is a parser that returns the tree of the values, and the store works on the
tree.  Arrays and objects may be open `maxNestingDepth` deep at most, as in
`encoding/json` since Go 1.15; an array or object opened beyond that is a syntax
error. -/

/-- A JSON value as the decoder reads it; a string holds its unquoted bytes. -/
inductive JValue where
  | null : JValue
  | bool : Bool → JValue
  | number : JValue
  | string : List Nat → JValue
  | array : List JValue → JValue
  | object : List (List Nat × JValue) → JValue

/-- Errors of `json.Unmarshal`: a `SyntaxError`, or an `UnmarshalTypeError` with
its fields `Value`, the kind of the JSON value, and `Type`, the Go type that it
could not be stored in. -/
inductive JsonError where
  | SyntaxError
  | UnmarshalTypeError (value : String) (type : String)
  deriving DecidableEq, Repr

/-- Function `isSpace` of the scanner. -/
def isSpace (c : Nat) : Bool := decide (c = 0x20 ∨ c = 0x09 ∨ c = 0x0D ∨ c = 0x0A)

/-- Skipping of white space between tokens. -/
def skipSpace (s : List Nat) : List Nat := s.dropWhile isSpace

/-- Value of a hexadecimal digit. -/
def hexVal (c : Nat) : Option Nat :=
  if 0x30 ≤ c ∧ c ≤ 0x39 then some (c - 0x30)
  else if 0x61 ≤ c ∧ c ≤ 0x66 then some (c - 0x61 + 10)
  else if 0x41 ≤ c ∧ c ≤ 0x46 then some (c - 0x41 + 10)
  else none

/-- Function `getu4`: the rune of a `\uXXXX` at the head of `s`, if there is one. -/
def getu4 (s : List Nat) : Option Nat :=
  match s with
  | 0x5C :: 0x75 :: a :: b :: c :: d :: _ =>
    match hexVal a, hexVal b, hexVal c, hexVal d with
    | some a, some b, some c, some d => some (((a * 16 + b) * 16 + c) * 16 + d)
    | _, _, _, _ => none
  | _ => none

/-- Function `utf16.DecodeRune`: the rune of a surrogate pair, `RuneError` when
the two are no pair. -/
def utf16DecodeRune (r1 r2 : Nat) : Nat :=
  if 0xD800 ≤ r1 ∧ r1 < 0xDC00 ∧ 0xDC00 ≤ r2 ∧ r2 < 0xE000 then
    (r1 - 0xD800) * 1024 + (r2 - 0xDC00) + 0x10000
  else RuneError

/-- The byte that a one-letter escape stands for. -/
def simpleEscape (e : Nat) : Option Nat :=
  if e = 0x22 ∨ e = 0x5C ∨ e = 0x2F then some e
  else if e = 0x62 then some 0x08
  else if e = 0x66 then some 0x0C
  else if e = 0x6E then some 0x0A
  else if e = 0x72 then some 0x0D
  else if e = 0x74 then some 0x09
  else none

/-- A string literal after its opening quote, one iteration for each unit of
fuel: the scanner's check of the literal and `unquoteBytes` in one pass.  The
result is the unquoted bytes and the input after the closing quote; `none` is a
syntax error. -/
def stringBody : Nat → List Nat → Option (List Nat × List Nat)
  | 0, _ => none
  | _ + 1, [] => none
  | fuel + 1, c :: rest =>
    if c = 0x22 then some ([], rest)
    else if c = 0x5C then
      match rest with
      | [] => none
      | e :: rest1 =>
        if e = 0x75 then
          match getu4 (c :: rest) with
          | none => none
          | some rr =>
            let rest2 := rest1.drop 4
            if 0xD800 ≤ rr ∧ rr < 0xE000 then
              match getu4 rest2 with
              | some rr1 =>
                if utf16DecodeRune rr rr1 ≠ RuneError then
                  (stringBody fuel (rest2.drop 6)).map
                    (fun p => (EncodeRune (utf16DecodeRune rr rr1) ++ p.1, p.2))
                else
                  (stringBody fuel rest2).map (fun p => (EncodeRune RuneError ++ p.1, p.2))
              | none =>
                (stringBody fuel rest2).map (fun p => (EncodeRune RuneError ++ p.1, p.2))
            else (stringBody fuel rest2).map (fun p => (EncodeRune rr ++ p.1, p.2))
        else
          match simpleEscape e with
          | some b => (stringBody fuel rest1).map (fun p => (b :: p.1, p.2))
          | none => none
    else if c < 0x20 then none
    else if c < 0x80 then (stringBody fuel rest).map (fun p => (c :: p.1, p.2))
    else
      (stringBody fuel ((c :: rest).drop (DecodeRune (c :: rest)).2)).map
        (fun p => (EncodeRune (DecodeRune (c :: rest)).1 ++ p.1, p.2))

/-- A decimal digit. -/
def isDigit (c : Nat) : Bool := decide (0x30 ≤ c ∧ c ≤ 0x39)

/-- The exponent part of a number, if any: the input after it. -/
def numberExp (s : List Nat) : Option (List Nat) :=
  match s with
  | e :: rest =>
    if e = 0x65 ∨ e = 0x45 then
      match (match rest with
             | sign :: rest1 => if sign = 0x2B ∨ sign = 0x2D then rest1 else rest
             | [] => rest) with
      | d :: rest2 => if isDigit d then some (rest2.dropWhile isDigit) else none
      | [] => none
    else some s
  | [] => some s

/-- The fraction and exponent parts of a number, if any: the input after them. -/
def numberFrac (s : List Nat) : Option (List Nat) :=
  match s with
  | 0x2E :: d :: rest => if isDigit d then numberExp (rest.dropWhile isDigit) else none
  | 0x2E :: [] => none
  | _ => numberExp s

/-- A number literal: the input after it, `none` for a syntax error. -/
def number (s : List Nat) : Option (List Nat) :=
  match (match s with
         | 0x2D :: rest => rest
         | _ => s) with
  | d :: rest =>
    if d = 0x30 then numberFrac rest
    else if isDigit d then numberFrac (rest.dropWhile isDigit)
    else none
  | [] => none

/-- A literal name (`true`, `false`, `null`). -/
def literal (name : List Nat) (v : JValue) (s : List Nat) : Option (JValue × List Nat) :=
  if name.isPrefixOf s then some (v, s.drop name.length) else none

/-- The elements of an array after the first one was found to be there: a value,
then a comma and the rest, or the closing bracket; `value` reads one value. -/
def elements (value : List Nat → Option (JValue × List Nat)) :
    Nat → List Nat → Option (List JValue × List Nat)
  | 0, _ => none
  | fuel + 1, s =>
    match value s with
    | none => none
    | some (v, rest) =>
      match skipSpace rest with
      | 0x2C :: rest1 =>
        (elements value fuel (skipSpace rest1)).map (fun p => (v :: p.1, p.2))
      | 0x5D :: rest1 => some ([v], rest1)
      | _ => none

/-- The members of an object after the first one was found to be there: a key, a
colon, a value, then a comma and the rest, or the closing brace. -/
def members (value : List Nat → Option (JValue × List Nat)) :
    Nat → List Nat → Option (List (List Nat × JValue) × List Nat)
  | 0, _ => none
  | fuel + 1, s =>
    match s with
    | 0x22 :: rest =>
      match stringBody rest.length rest with
      | none => none
      | some (key, rest1) =>
        match skipSpace rest1 with
        | 0x3A :: rest2 =>
          match value (skipSpace rest2) with
          | none => none
          | some (v, rest3) =>
            match skipSpace rest3 with
            | 0x2C :: rest4 =>
              (members value fuel (skipSpace rest4)).map (fun p => ((key, v) :: p.1, p.2))
            | 0x7D :: rest4 => some ([(key, v)], rest4)
            | _ => none
        | _ => none
    | _ => none

/-- Constant `maxNestingDepth` of the scanner. -/
def maxNestingDepth : Nat := 10000

/-- One JSON value at the head of `s`, where `room` more arrays and objects may
be opened inside one another before the nesting limit is passed: the value and
the input after it, `none` for a syntax error. -/
def value : Nat → List Nat → Option (JValue × List Nat)
  | room, s =>
    match s with
    | [] => none
    | c :: rest =>
      if c = 0x7B then
        match room with
        | 0 => none
        | room1 + 1 =>
          match skipSpace rest with
          | 0x7D :: rest1 => some (JValue.object [], rest1)
          | rest1 => (members (value room1) rest1.length rest1).map
              (fun p => (JValue.object p.1, p.2))
      else if c = 0x5B then
        match room with
        | 0 => none
        | room1 + 1 =>
          match skipSpace rest with
          | 0x5D :: rest1 => some (JValue.array [], rest1)
          | rest1 => (elements (value room1) rest1.length rest1).map
              (fun p => (JValue.array p.1, p.2))
      else if c = 0x22 then
        (stringBody rest.length rest).map (fun p => (JValue.string p.1, p.2))
      else if c = 0x74 then literal (ascii "true") (JValue.bool true) s
      else if c = 0x66 then literal (ascii "false") (JValue.bool false) s
      else if c = 0x6E then literal (ascii "null") JValue.null s
      else (number s).map (fun rest1 => (JValue.number, rest1))

/-- Function `checkValid` with the tree of what it read: the input is white
space, one value and white space, with no array or object open more than
`maxNestingDepth` deep. -/
def checkValid (data : List Nat) : Option JValue :=
  match value maxNestingDepth (skipSpace data) with
  | none => none
  | some (v, rest) => if skipSpace rest = [] then some v else none

/-- The fields of `Robot`. -/
inductive Field where
  | Name | User | IP | X | Y | Alive | LastAlive
  deriving DecidableEq, Repr

/-- The name of a field as the decoder looks for it. -/
def Field.key : Field → List Nat
  | Field.Name => ascii "Name"
  | Field.User => ascii "User"
  | Field.IP => ascii "IP"
  | Field.X => ascii "X"
  | Field.Y => ascii "Y"
  | Field.Alive => ascii "Alive"
  | Field.LastAlive => ascii "LastAlive"

/-- Assignment of a string to a field. -/
def RawRobot.set (r : RawRobot) (f : Field) (s : List Nat) : RawRobot :=
  match f with
  | Field.Name => { r with Name := s }
  | Field.User => { r with User := s }
  | Field.IP => { r with IP := s }
  | Field.X => { r with X := s }
  | Field.Y => { r with Y := s }
  | Field.Alive => { r with Alive := s }
  | Field.LastAlive => { r with LastAlive := s }

/-- The zero value of `Robot`. -/
def RawRobot.zero : RawRobot := ⟨[], [], [], [], [], [], []⟩

/-- An ASCII byte with its case bit cleared. -/
def upperByte (b : Nat) : Nat := if b / 32 % 2 = 1 then b - 32 else b

/-- Function `equalFoldRight` of `encoding/json`: whether the key `t` is the
ASCII field name `s` up to case, where the Kelvin sign counts as a `k` and the
long s as an `s`. -/
def equalFoldRight : List Nat → List Nat → Bool
  | [], t => t.isEmpty
  | _ :: _, [] => false
  | sb :: s, tb :: t =>
    if tb < 0x80 then
      if sb ≠ tb then
        if 0x41 ≤ upperByte sb ∧ upperByte sb ≤ 0x5A then
          if upperByte sb ≠ upperByte tb then false else equalFoldRight s t
        else false
      else equalFoldRight s t
    else
      if sb = 0x73 ∨ sb = 0x53 then
        if (DecodeRune (tb :: t)).1 ≠ 0x17F then false
        else equalFoldRight s ((tb :: t).drop (DecodeRune (tb :: t)).2)
      else if sb = 0x6B ∨ sb = 0x4B then
        if (DecodeRune (tb :: t)).1 ≠ 0x212A then false
        else equalFoldRight s ((tb :: t).drop (DecodeRune (tb :: t)).2)
      else false

/-- The field that an object key names, if any. -/
def findField (key : List Nat) : Option Field :=
  [Field.Name, Field.User, Field.IP, Field.X, Field.Y, Field.Alive, Field.LastAlive].find?
    (fun f => equalFoldRight f.key key)

/-- The first error met is the one kept (`saveError`). -/
def saveError (saved new : Option JsonError) : Option JsonError :=
  match saved with
  | some e => some e
  | none => new

/-- Store of a value into a string field: a string is assigned, `null` is
passed over, anything else is a type error that leaves the field as it is. -/
def storeField (r : RawRobot) (f : Field) (v : JValue) : RawRobot × Option JsonError :=
  match v with
  | JValue.string s => (r.set f s, none)
  | JValue.null => (r, none)
  | JValue.bool _ => (r, some (JsonError.UnmarshalTypeError "bool" "string"))
  | JValue.number => (r, some (JsonError.UnmarshalTypeError "number" "string"))
  | JValue.array _ => (r, some (JsonError.UnmarshalTypeError "array" "string"))
  | JValue.object _ => (r, some (JsonError.UnmarshalTypeError "object" "string"))

/-- Store of one member of an object into a `Robot`: a key that names no field
is skipped with its value. -/
def storeMember (acc : RawRobot × Option JsonError) (m : List Nat × JValue) :
    RawRobot × Option JsonError :=
  match findField m.1 with
  | none => acc
  | some f => ((storeField acc.1 f m.2).1, saveError acc.2 (storeField acc.1 f m.2).2)

/-- Store of a value into a fresh element of the slice: an object fills the
fields, `null` is passed over, anything else is a type error; the element is
there in every case. -/
def storeRobot (v : JValue) : RawRobot × Option JsonError :=
  match v with
  | JValue.object ms => ms.foldl storeMember (RawRobot.zero, none)
  | JValue.null => (RawRobot.zero, none)
  | JValue.bool _ => (RawRobot.zero, some (JsonError.UnmarshalTypeError "bool" "main.Robot"))
  | JValue.number => (RawRobot.zero, some (JsonError.UnmarshalTypeError "number" "main.Robot"))
  | JValue.string _ => (RawRobot.zero, some (JsonError.UnmarshalTypeError "string" "main.Robot"))
  | JValue.array _ => (RawRobot.zero, some (JsonError.UnmarshalTypeError "array" "main.Robot"))

/-- Store of the elements of an array into the slice, one element each. -/
def storeElems (items : List JValue) : List RawRobot × Option JsonError :=
  items.foldl
    (fun acc v => (acc.1 ++ [(storeRobot v).1], saveError acc.2 (storeRobot v).2))
    ([], none)

/-- Function `json.Unmarshal(data, &robots)` on the nil slice `robots`, as `load`
calls it: the slice afterwards and the error.  An input that is not JSON leaves
the slice as it was; so does a value that is no array, and `null` sets it to
nil. -/
def Unmarshal (data : List Nat) : List RawRobot × Option JsonError :=
  match checkValid data with
  | none => ([], some JsonError.SyntaxError)
  | some (JValue.array items) => storeElems items
  | some JValue.null => ([], none)
  | some (JValue.bool _) => ([], some (JsonError.UnmarshalTypeError "bool" "[]main.Robot"))
  | some JValue.number => ([], some (JsonError.UnmarshalTypeError "number" "[]main.Robot"))
  | some (JValue.string _) => ([], some (JsonError.UnmarshalTypeError "string" "[]main.Robot"))
  | some (JValue.object _) => ([], some (JsonError.UnmarshalTypeError "object" "[]main.Robot"))

/-! ### The file and the functions `save` and `load` -/

/-- What `ioutil.ReadFile(file)` can meet: no file that can be opened, a file of
which only a part could be read, or a file read to its end. -/
inductive FileState where
  | missing
  | unreadable (part : List Nat)
  | present (content : List Nat)

/-- Function `ioutil.ReadFile`: the bytes read and whether there was an error. -/
def ReadFile (f : FileState) : List Nat × Bool :=
  match f with
  | FileState.missing => ([], true)
  | FileState.unreadable part => (part, true)
  | FileState.present content => (content, false)

/-- Function `checkErr`: the message is logged when there is an error, and the
caller goes on in both cases. -/
def checkErr (err : Bool) (message : String) (log : List String) : List String :=
  if err then log ++ ["Error: " ++ message] else log

/-- Function `save` when the write succeeds: the file afterwards.  `json.Marshal` returns
no error on a slice of `Robot`. -/
def save (robots : List RawRobot) : FileState :=
  FileState.present (Marshal robots)

/-- Function `load`, called once by `main` while `robots` is nil: the registry
afterwards and the log, of which the lines with the messages are kept. -/
def load (file : String) (f : FileState) : List RawRobot × List String :=
  let bytes := (ReadFile f).1
  let err := (ReadFile f).2
  let log := checkErr err ("couldn't read from " ++ file) []
  let robots := (Unmarshal bytes).1
  let err := (Unmarshal bytes).2
  let log := checkErr err.isSome ("couldn't unmarshal data read from " ++ file) log
  (robots, log)

/-- What `encodeState.string` writes for one character of a well-formed string:
the character itself, or its escape. -/
def escapeRune (r : Nat) : List Nat :=
  if r < 0x80 then
    if htmlSafeSet r then [r]
    else
      0x5C ::
        (if r = 0x5C ∨ r = 0x22 then [r]
         else if r = 0x0A then [0x6E]
         else if r = 0x0D then [0x72]
         else if r = 0x09 then [0x74]
         else [0x75, 0x30, 0x30, hex (r / 16), hex (r % 16)])
  else if r = 0x2028 ∨ r = 0x2029 then [0x5C, 0x75, 0x32, 0x30, 0x32, hex (r % 16)]
  else EncodeRune r

/-- What `encodeState.string` writes between the quotes for a text. -/
def escaped (s : String) : List Nat := s.data.flatMap (fun c => escapeRune c.toNat)

/-- The tree that the decoder reads from the object of a record. -/
def robotTree (r : RawRobot) : JValue :=
  JValue.object
    [(ascii "Name", JValue.string r.Name), (ascii "User", JValue.string r.User),
     (ascii "IP", JValue.string r.IP), (ascii "X", JValue.string r.X),
     (ascii "Y", JValue.string r.Y), (ascii "Alive", JValue.string r.Alive),
     (ascii "LastAlive", JValue.string r.LastAlive)]

/-- Whether an error is one that the store of the elements can save: no
`SyntaxError`, which only the check returns, and no type error for `[]Robot`,
which only the store of the top-level value returns. -/
def storeError (e : Option JsonError) : Bool :=
  match e with
  | none => true
  | some JsonError.SyntaxError => false
  | some (JsonError.UnmarshalTypeError _ t) => t != "[]main.Robot"

/-! ## Lemmas on the update loop -/

section UpdateLemmas

variable (query : Values) (addr : String) (now : Int)

@[simp] theorem updateFound_Name (r : Robot) :
    (updateFound query addr now r).Name = r.Name := rfl

@[simp] theorem updateFound_User (r : Robot) :
    (updateFound query addr now r).User = query.Get "user" := rfl

@[simp] theorem updateFound_IP (r : Robot) :
    (updateFound query addr now r).IP = addr := rfl

@[simp] theorem updateFound_X (r : Robot) :
    (updateFound query addr now r).X = query.Get "x" := rfl

@[simp] theorem updateFound_Y (r : Robot) :
    (updateFound query addr now r).Y = query.Get "y" := rfl

@[simp] theorem updateFound_Alive (r : Robot) :
    (updateFound query addr now r).Alive = r.Alive := rfl

@[simp] theorem updateFound_LastAlive (r : Robot) :
    (updateFound query addr now r).LastAlive = FormatInt now := rfl

/-- The loop runs to its end exactly when no record carries the reported name. -/
theorem updateLoop_eq_none_iff (robots : List Robot) :
    updateLoop query addr now robots = none ↔
      ∀ b ∈ robots, b.Name ≠ query.Get "name" := by
  induction robots with
  | nil => simp [updateLoop]
  | cons bot rest ih =>
    by_cases hb : bot.Name = query.Get "name"
    · simp [updateLoop, hb]
    · simp [updateLoop, hb, ih]

/-- When a record carries the reported name, the loop rewrites the first such
record and nothing else. -/
theorem updateLoop_of_mem (robots : List Robot)
    (h : ∃ b ∈ robots, b.Name = query.Get "name") :
    ∃ pre old post, robots = pre ++ old :: post ∧
      (∀ b ∈ pre, b.Name ≠ query.Get "name") ∧ old.Name = query.Get "name" ∧
      updateLoop query addr now robots =
        some (pre ++ updateFound query addr now old :: post) := by
  induction robots with
  | nil => simp at h
  | cons bot rest ih =>
    by_cases hb : bot.Name = query.Get "name"
    · exact ⟨[], bot, rest, rfl, by simp, hb, by simp [updateLoop, hb]⟩
    · have h1 : ∃ b ∈ rest, b.Name = query.Get "name" := by
        obtain ⟨b, hmem, hname⟩ := h
        rcases List.mem_cons.mp hmem with heq | hin
        · exact absurd (heq ▸ hname) hb
        · exact ⟨b, hin, hname⟩
      obtain ⟨pre, old, post, hrest, hpre, hold, hloop⟩ := ih h1
      refine ⟨bot :: pre, old, post, by simp [hrest], ?_, hold, ?_⟩
      · intro b hmem
        rcases List.mem_cons.mp hmem with heq | hin
        · exact heq ▸ hb
        · exact hpre b hin
      · simp [updateLoop, hb, hloop]

/-- The registry after `updateRobot` when the name is new. -/
theorem updateRobot_snd_of_not_mem (robots : List Robot)
    (h : ∀ b ∈ robots, b.Name ≠ query.Get "name") :
    (updateRobot query addr now robots).2 = addRobot query addr now robots := by
  have hn := (updateLoop_eq_none_iff query addr now robots).mpr h
  simp [updateRobot, hn]

/-- The registry after `updateRobot` when the name is present. -/
theorem updateRobot_snd_of_mem (robots : List Robot)
    (h : ∃ b ∈ robots, b.Name = query.Get "name") :
    ∃ pre old post, robots = pre ++ old :: post ∧
      (∀ b ∈ pre, b.Name ≠ query.Get "name") ∧ old.Name = query.Get "name" ∧
      (updateRobot query addr now robots).2 =
        pre ++ updateFound query addr now old :: post := by
  obtain ⟨pre, old, post, hrobots, hpre, hold, hloop⟩ :=
    updateLoop_of_mem query addr now robots h
  exact ⟨pre, old, post, hrobots, hpre, hold, by simp [updateRobot, hloop]⟩

/-- The names after `updateRobot`: unchanged, or with the new name at the end. -/
theorem updateRobot_names (robots : List Robot) :
    ((updateRobot query addr now robots).2).map Robot.Name =
      if query.Get "name" ∈ robots.map Robot.Name then robots.map Robot.Name
      else robots.map Robot.Name ++ [query.Get "name"] := by
  by_cases h : ∃ b ∈ robots, b.Name = query.Get "name"
  · obtain ⟨pre, old, post, hrobots, _, _, hres⟩ :=
      updateRobot_snd_of_mem query addr now robots h
    have hmem : query.Get "name" ∈ robots.map Robot.Name := by
      obtain ⟨b, hb, hname⟩ := h
      exact List.mem_map.mpr ⟨b, hb, hname⟩
    rw [if_pos hmem, hres, hrobots]
    simp
  · have h1 : ∀ b ∈ robots, b.Name ≠ query.Get "name" := by
      intro b hb hname
      exact h ⟨b, hb, hname⟩
    have hmem : ¬ query.Get "name" ∈ robots.map Robot.Name := by
      intro hm
      obtain ⟨b, hb, hname⟩ := List.mem_map.mp hm
      exact h ⟨b, hb, hname⟩
    rw [if_neg hmem, updateRobot_snd_of_not_mem query addr now robots h1]
    simp [addRobot]

/-- The `Alive` fields after `updateRobot`: unchanged, or with `"true"` at the end. -/
theorem updateRobot_alives (robots : List Robot) :
    ((updateRobot query addr now robots).2).map Robot.Alive =
      if query.Get "name" ∈ robots.map Robot.Name then robots.map Robot.Alive
      else robots.map Robot.Alive ++ ["true"] := by
  by_cases h : ∃ b ∈ robots, b.Name = query.Get "name"
  · obtain ⟨pre, old, post, hrobots, _, _, hres⟩ :=
      updateRobot_snd_of_mem query addr now robots h
    have hmem : query.Get "name" ∈ robots.map Robot.Name := by
      obtain ⟨b, hb, hname⟩ := h
      exact List.mem_map.mpr ⟨b, hb, hname⟩
    rw [if_pos hmem, hres, hrobots]
    simp
  · have h1 : ∀ b ∈ robots, b.Name ≠ query.Get "name" := by
      intro b hb hname
      exact h ⟨b, hb, hname⟩
    have hmem : ¬ query.Get "name" ∈ robots.map Robot.Name := by
      intro hm
      obtain ⟨b, hb, hname⟩ := List.mem_map.mp hm
      exact h ⟨b, hb, hname⟩
    rw [if_neg hmem, updateRobot_snd_of_not_mem query addr now robots h1]
    simp [addRobot]

end UpdateLemmas

/-- Serving one more report. -/
theorem runFrom_append_singleton (robots : List Robot) (reports : List Report) (r : Report) :
    runFrom robots (reports ++ [r]) =
      (updateRobot r.query r.addr r.now (runFrom robots reports)).2 := by
  simp [runFrom, List.foldl_append]

/-- The two responses differ. -/
theorem updated_ne_added (s t : String) : "updated " ++ s ≠ "Added " ++ t := by
  intro h
  have h1 := congrArg String.data h
  simp only [String.data_append] at h1
  have h2 : 'u' :: ("pdated ".data ++ s.data) = 'A' :: ("dded ".data ++ t.data) := h1
  injection h2 with hc _
  exact absurd hc (by decide)

/-- The first element satisfying `p` in a list split at it. -/
theorem find?_split {α : Type} (p : α → Bool) (pre : List α) (x : α) (post : List α)
    (hpre : ∀ b ∈ pre, p b = false) (hx : p x = true) :
    (pre ++ x :: post).find? p = some x := by
  induction pre with
  | nil => simp [hx]
  | cons a pre ih =>
    have ha : p a = false := hpre a (List.mem_cons_self a pre)
    have hrest : ∀ b ∈ pre, p b = false := fun b hb => hpre b (List.mem_cons_of_mem a hb)
    simp [List.find?, ha, ih hrest]

/-- The index of the first element satisfying `p` in a list split at it. -/
theorem findIdx_split {α : Type} (p : α → Bool) (pre : List α) (x : α) (post : List α)
    (hpre : ∀ b ∈ pre, p b = false) (hx : p x = true) :
    (pre ++ x :: post).findIdx p = pre.length := by
  induction pre with
  | nil => simp [List.findIdx_cons, hx]
  | cons a pre ih =>
    have ha : p a = false := hpre a (List.mem_cons_self a pre)
    have hrest : ∀ b ∈ pre, p b = false := fun b hb => hpre b (List.mem_cons_of_mem a hb)
    simp [List.findIdx_cons, ha, ih hrest]

/-- One `updateRobot` keeps the names pairwise distinct. -/
theorem updateRobot_names_nodup (query : Values) (addr : String) (now : Int)
    (robots : List Robot) (h : (robots.map Robot.Name).Nodup) :
    (((updateRobot query addr now robots).2).map Robot.Name).Nodup := by
  rw [updateRobot_names]
  by_cases hmem : query.Get "name" ∈ robots.map Robot.Name
  · rw [if_pos hmem]; exact h
  · rw [if_neg hmem]
    exact List.nodup_append.mpr ⟨h, List.nodup_singleton _, by
      intro a ha hb
      rw [List.mem_singleton] at hb
      exact hmem (hb ▸ ha)⟩

/-- Serving reports keeps the names pairwise distinct. -/
theorem runFrom_names_nodup (reports : List Report) (robots : List Robot)
    (h : (robots.map Robot.Name).Nodup) :
    ((runFrom robots reports).map Robot.Name).Nodup := by
  induction reports generalizing robots with
  | nil => exact h
  | cons r rest ih =>
    exact ih _ (updateRobot_names_nodup r.query r.addr r.now robots h)

/-- One `updateRobot` keeps every `Alive` equal to `"true"`. -/
theorem updateRobot_all_alive (query : Values) (addr : String) (now : Int)
    (robots : List Robot) (h : ∀ a ∈ robots.map Robot.Alive, a = "true") :
    ∀ a ∈ ((updateRobot query addr now robots).2).map Robot.Alive, a = "true" := by
  rw [updateRobot_alives]
  by_cases hmem : query.Get "name" ∈ robots.map Robot.Name
  · rw [if_pos hmem]; exact h
  · rw [if_neg hmem]
    intro a ha
    rcases List.mem_append.mp ha with h1 | h1
    · exact h a h1
    · exact List.mem_singleton.mp h1

/-- Serving reports keeps every `Alive` equal to `"true"`. -/
theorem runFrom_all_alive (reports : List Report) (robots : List Robot)
    (h : ∀ a ∈ robots.map Robot.Alive, a = "true") :
    ∀ a ∈ (runFrom robots reports).map Robot.Alive, a = "true" := by
  induction reports generalizing robots with
  | nil => exact h
  | cons r rest ih =>
    exact ih _ (updateRobot_all_alive r.query r.addr r.now robots h)

/-! ## Upsert: claims on `updateRobot` -/

/-- C2. Upsert of an unseen name: when no record of the registry carries the
reported name, `updateRobot` leaves the existing records as they are, in place,
and appends exactly one record, whose Name, User, X, Y are the query's, whose IP
is the remote address, whose Alive is `"true"` and whose LastAlive is the decimal
string of the clock; the length grows by one. -/
theorem upsert_unseen_appends (query : Values) (addr : String) (now : Int)
    (robots : List Robot) (h : ∀ b ∈ robots, b.Name ≠ query.Get "name") :
    (updateRobot query addr now robots).2 =
        robots ++ [{ Name := query.Get "name", User := query.Get "user", IP := addr,
                     X := query.Get "x", Y := query.Get "y", Alive := "true",
                     LastAlive := FormatInt now }] ∧
      ((updateRobot query addr now robots).2).length = robots.length + 1 := by
  rw [updateRobot_snd_of_not_mem query addr now robots h]
  simp [addRobot]

/-- C2, at the report name=r1, user=alice, x=1, y=2 from 10.0.0.1 on the empty
registry. -/
theorem upsert_unseen_appends_witness :
    (updateRobot (mkQuery "r1" "alice" "1" "2") "10.0.0.1" 1700000000 []).2 =
        [] ++ [{ Name := "r1", User := "alice", IP := "10.0.0.1", X := "1", Y := "2",
                 Alive := "true", LastAlive := "1700000000" }] ∧
      ((updateRobot (mkQuery "r1" "alice" "1" "2") "10.0.0.1" 1700000000 []).2).length
        = 0 + 1 :=
  upsert_unseen_appends (mkQuery "r1" "alice" "1" "2") "10.0.0.1" 1700000000 []
    (fun _ hb => absurd hb (List.not_mem_nil _))

/-- C3. Upsert of a seen name: when some record carries the reported name,
`updateRobot` keeps the length, and the first record with that name, which stays
at its index, afterwards has the query's User, X, Y, the remote address as IP and
the decimal string of the clock as LastAlive, whatever its LastAlive was; its
Name is unchanged. -/
theorem upsert_seen_overwrites (query : Values) (addr : String) (now : Int)
    (robots : List Robot) (h : ∃ b ∈ robots, b.Name = query.Get "name") :
    ((updateRobot query addr now robots).2).length = robots.length ∧
      ∃ old new,
        robots.find? (fun b => decide (b.Name = query.Get "name")) = some old ∧
        ((updateRobot query addr now robots).2).find?
            (fun b => decide (b.Name = query.Get "name")) = some new ∧
        ((updateRobot query addr now robots).2).findIdx
            (fun b => decide (b.Name = query.Get "name")) =
          robots.findIdx (fun b => decide (b.Name = query.Get "name")) ∧
        new.User = query.Get "user" ∧ new.IP = addr ∧ new.X = query.Get "x" ∧
        new.Y = query.Get "y" ∧ new.LastAlive = FormatInt now ∧
        new.Name = old.Name ∧ new.Name = query.Get "name" := by
  obtain ⟨pre, old, post, hrobots, hpre, hold, hres⟩ :=
    updateRobot_snd_of_mem query addr now robots h
  have hpre1 : ∀ b ∈ pre, (fun b : Robot => decide (b.Name = query.Get "name")) b = false := by
    intro b hb
    simpa using hpre b hb
  have hold1 : (fun b : Robot => decide (b.Name = query.Get "name")) old = true := by
    simpa using hold
  have hnew1 : (fun b : Robot => decide (b.Name = query.Get "name"))
      (updateFound query addr now old) = true := by
    simpa using hold
  refine ⟨by rw [hres, hrobots]; simp, old, updateFound query addr now old, ?_, ?_, ?_,
    rfl, rfl, rfl, rfl, rfl, rfl, hold⟩
  · rw [hrobots]; exact find?_split _ pre old post hpre1 hold1
  · rw [hres]; exact find?_split _ pre _ post hpre1 hnew1
  · rw [hres, findIdx_split _ pre _ post hpre1 hnew1]
    rw [hrobots, findIdx_split _ pre _ post hpre1 hold1]

/-- C3, at the second report name=r1, user=bob, x=3, y=4 from 10.0.0.2, on the
registry that holds r1 with a LastAlive that is no number. -/
theorem upsert_seen_overwrites_witness :
    ((updateRobot (mkQuery "r1" "bob" "3" "4") "10.0.0.2" 1700000007
        [⟨"r1", "alice", "10.0.0.1", "1", "2", "true", "yesterday"⟩]).2).length = 1 ∧
      ∃ old new,
        [(⟨"r1", "alice", "10.0.0.1", "1", "2", "true", "yesterday"⟩ : Robot)].find?
            (fun b => decide (b.Name = "r1")) = some old ∧
        ((updateRobot (mkQuery "r1" "bob" "3" "4") "10.0.0.2" 1700000007
            [⟨"r1", "alice", "10.0.0.1", "1", "2", "true", "yesterday"⟩]).2).find?
            (fun b => decide (b.Name = "r1")) = some new ∧
        ((updateRobot (mkQuery "r1" "bob" "3" "4") "10.0.0.2" 1700000007
            [⟨"r1", "alice", "10.0.0.1", "1", "2", "true", "yesterday"⟩]).2).findIdx
            (fun b => decide (b.Name = "r1")) =
          [(⟨"r1", "alice", "10.0.0.1", "1", "2", "true", "yesterday"⟩ : Robot)].findIdx
            (fun b => decide (b.Name = "r1")) ∧
        new.User = "bob" ∧ new.IP = "10.0.0.2" ∧ new.X = "3" ∧
        new.Y = "4" ∧ new.LastAlive = "1700000007" ∧
        new.Name = old.Name ∧ new.Name = "r1" :=
  upsert_seen_overwrites (mkQuery "r1" "bob" "3" "4") "10.0.0.2" 1700000007
    [⟨"r1", "alice", "10.0.0.1", "1", "2", "true", "yesterday"⟩]
    ⟨⟨"r1", "alice", "10.0.0.1", "1", "2", "true", "yesterday"⟩,
      List.mem_singleton.mpr rfl, rfl⟩

/-- C4. Response of an update: `updateRobot` answers `"updated "` followed by the
name exactly when some record with that name was in the registry before the
call, `"Added "` followed by the name exactly when none was, and nothing else. -/
theorem response_updated_iff_present (query : Values) (addr : String) (now : Int)
    (robots : List Robot) :
    ((updateRobot query addr now robots).1 = "updated " ++ query.Get "name" ↔
        ∃ b ∈ robots, b.Name = query.Get "name") ∧
      ((updateRobot query addr now robots).1 = "Added " ++ query.Get "name" ↔
        ¬ ∃ b ∈ robots, b.Name = query.Get "name") ∧
      ((updateRobot query addr now robots).1 = "updated " ++ query.Get "name" ∨
        (updateRobot query addr now robots).1 = "Added " ++ query.Get "name") := by
  by_cases h : ∃ b ∈ robots, b.Name = query.Get "name"
  · obtain ⟨pre, old, post, _, _, _, hloop⟩ := updateLoop_of_mem query addr now robots h
    have hret : (updateRobot query addr now robots).1 = "updated " ++ query.Get "name" := by
      simp [updateRobot, hloop]
    refine ⟨⟨fun _ => h, fun _ => hret⟩, ⟨fun hadd => ?_, fun hn => absurd h hn⟩, Or.inl hret⟩
    rw [hret] at hadd
    exact absurd hadd (updated_ne_added _ _)
  · have h1 : ∀ b ∈ robots, b.Name ≠ query.Get "name" := fun b hb hname => h ⟨b, hb, hname⟩
    have hn := (updateLoop_eq_none_iff query addr now robots).mpr h1
    have hret : (updateRobot query addr now robots).1 = "Added " ++ query.Get "name" := by
      simp [updateRobot, hn]
    refine ⟨⟨fun hupd => ?_, fun hp => absurd hp h⟩, ⟨fun _ => h, fun _ => hret⟩, Or.inr hret⟩
    rw [hret] at hupd
    exact absurd hupd.symm (updated_ne_added _ _)

/-- C5. The alive flag is never refreshed: `updateRobot` leaves the Alive field of
every record that was in the registry unchanged, position by position; and in
every registry reached from the empty one by `updateRobot` calls, every record
has Alive equal to `"true"`. -/
theorem alive_never_refreshed (query : Values) (addr : String) (now : Int)
    (robots : List Robot) (reports : List Report) :
    (((updateRobot query addr now robots).2).take robots.length).map Robot.Alive =
        robots.map Robot.Alive ∧
      (run reports).map Robot.Alive = List.replicate (run reports).length "true" := by
  constructor
  · rw [List.map_take, updateRobot_alives]
    by_cases hmem : query.Get "name" ∈ robots.map Robot.Name
    · rw [if_pos hmem]
      have hlen : robots.length = (robots.map Robot.Alive).length := by simp
      rw [hlen, List.take_length]
    · rw [if_neg hmem]
      have hlen : robots.length = (robots.map Robot.Alive).length := by simp
      rw [hlen, List.take_left]
  · have hall := runFrom_all_alive reports [] (by simp)
    have hlen : (run reports).length = ((run reports).map Robot.Alive).length := by simp
    rw [hlen]
    exact List.eq_replicate_iff.mpr ⟨rfl, hall⟩

/-- C6, refuted at the second report of the specification's scenario: after the
update of r1 at clock 200 the record's Alive is still `"true"`, while the
decimal string of the clock, `"200"`, is in LastAlive. -/
theorem alive_overwritten_counterexample :
    (updateRobot (mkQuery "r1" "bob" "3" "4") "10.0.0.2" 200
        [⟨"r1", "alice", "10.0.0.1", "1", "2", "true", "100"⟩]).2 =
        [⟨"r1", "bob", "10.0.0.2", "3", "4", "true", "200"⟩] ∧
      FormatInt 200 = "200" ∧
      ¬ (((updateRobot (mkQuery "r1" "bob" "3" "4") "10.0.0.2" 200
          [⟨"r1", "alice", "10.0.0.1", "1", "2", "true", "100"⟩]).2).map Robot.Alive =
        [FormatInt 200]) := by
  decide

/-- C6, amended. When some record carries the reported name, after `updateRobot`
the decimal string of the clock is the LastAlive field of the first record with
that name, and the Alive field of that record is the one it had before. -/
theorem timestamp_in_lastAlive_not_alive (query : Values) (addr : String) (now : Int)
    (robots : List Robot) (h : ∃ b ∈ robots, b.Name = query.Get "name") :
    ∃ old new,
      robots.find? (fun b => decide (b.Name = query.Get "name")) = some old ∧
      ((updateRobot query addr now robots).2).find?
          (fun b => decide (b.Name = query.Get "name")) = some new ∧
      new.LastAlive = FormatInt now ∧ new.Alive = old.Alive := by
  obtain ⟨pre, old, post, hrobots, hpre, hold, hres⟩ :=
    updateRobot_snd_of_mem query addr now robots h
  have hpre1 : ∀ b ∈ pre, (fun b : Robot => decide (b.Name = query.Get "name")) b = false := by
    intro b hb
    simpa using hpre b hb
  have hold1 : (fun b : Robot => decide (b.Name = query.Get "name")) old = true := by
    simpa using hold
  have hnew1 : (fun b : Robot => decide (b.Name = query.Get "name"))
      (updateFound query addr now old) = true := by
    simpa using hold
  refine ⟨old, updateFound query addr now old, ?_, ?_, rfl, rfl⟩
  · rw [hrobots]; exact find?_split _ pre old post hpre1 hold1
  · rw [hres]; exact find?_split _ pre _ post hpre1 hnew1

/-- C6 amended, at the update of r1 at clock 200. -/
theorem timestamp_in_lastAlive_not_alive_witness :
    ∃ old new,
      [(⟨"r1", "alice", "10.0.0.1", "1", "2", "true", "100"⟩ : Robot)].find?
          (fun b => decide (b.Name = "r1")) = some old ∧
      ((updateRobot (mkQuery "r1" "bob" "3" "4") "10.0.0.2" 200
          [⟨"r1", "alice", "10.0.0.1", "1", "2", "true", "100"⟩]).2).find?
          (fun b => decide (b.Name = "r1")) = some new ∧
      new.LastAlive = "200" ∧ new.Alive = old.Alive :=
  timestamp_in_lastAlive_not_alive (mkQuery "r1" "bob" "3" "4") "10.0.0.2" 200
    [⟨"r1", "alice", "10.0.0.1", "1", "2", "true", "100"⟩]
    ⟨⟨"r1", "alice", "10.0.0.1", "1", "2", "true", "100"⟩, List.mem_singleton.mpr rfl, rfl⟩

/-- C7. At most one record per name: if no two records of the registry share a
Name before `updateRobot`, none do after it; and every registry reached from the
empty one by `updateRobot` calls has pairwise distinct names. -/
theorem names_stay_distinct (query : Values) (addr : String) (now : Int)
    (robots : List Robot) (reports : List Report)
    (h : (robots.map Robot.Name).Nodup) :
    (((updateRobot query addr now robots).2).map Robot.Name).Nodup ∧
      ((run reports).map Robot.Name).Nodup :=
  ⟨updateRobot_names_nodup query addr now robots h,
    runFrom_names_nodup reports [] List.nodup_nil⟩

/-- C7, at a registry of two records and a report for the second, and at a run of
three reports over two names. -/
theorem names_stay_distinct_witness :
    (((updateRobot (mkQuery "r2" "bob" "3" "4") "10.0.0.2" 200
        [⟨"r1", "alice", "10.0.0.1", "1", "2", "true", "100"⟩,
         ⟨"r2", "carol", "10.0.0.3", "5", "6", "true", "150"⟩]).2).map Robot.Name).Nodup ∧
      ((run [⟨mkQuery "r1" "alice" "1" "2", "10.0.0.1", 100⟩,
             ⟨mkQuery "r2" "carol" "5" "6", "10.0.0.3", 150⟩,
             ⟨mkQuery "r1" "bob" "3" "4", "10.0.0.2", 200⟩]).map Robot.Name).Nodup :=
  names_stay_distinct (mkQuery "r2" "bob" "3" "4") "10.0.0.2" 200
    [⟨"r1", "alice", "10.0.0.1", "1", "2", "true", "100"⟩,
     ⟨"r2", "carol", "10.0.0.3", "5", "6", "true", "150"⟩]
    [⟨mkQuery "r1" "alice" "1" "2", "10.0.0.1", 100⟩,
     ⟨mkQuery "r2" "carol" "5" "6", "10.0.0.3", 150⟩,
     ⟨mkQuery "r1" "bob" "3" "4", "10.0.0.2", 200⟩]
    (by decide)

/-! ## Latest-state tracking -/

/-- The names in the registry after one `updateRobot`. -/
theorem mem_updateRobot_names (query : Values) (addr : String) (now : Int)
    (robots : List Robot) (n : String) :
    n ∈ ((updateRobot query addr now robots).2).map Robot.Name ↔
      n ∈ robots.map Robot.Name ∨ n = query.Get "name" := by
  rw [updateRobot_names]
  by_cases hmem : query.Get "name" ∈ robots.map Robot.Name
  · rw [if_pos hmem]
    constructor
    · exact Or.inl
    · rintro (h | h)
      · exact h
      · exact h ▸ hmem
  · rw [if_neg hmem]
    simp

/-- The names in the registry after serving reports. -/
theorem mem_runFrom_names (reports : List Report) (robots : List Robot) (n : String) :
    n ∈ (runFrom robots reports).map Robot.Name ↔
      n ∈ robots.map Robot.Name ∨ n ∈ reports.map (fun r => r.query.Get "name") := by
  induction reports generalizing robots with
  | nil => simp [runFrom]
  | cons r rest ih =>
    have hstep : runFrom robots (r :: rest) =
        runFrom (updateRobot r.query r.addr r.now robots).2 rest := rfl
    rw [hstep, ih, mem_updateRobot_names]
    simp only [List.map_cons, List.mem_cons]
    tauto

/-- Every record of a registry reached from the empty one carries the data of
the last report with its name. -/
theorem run_last_report (reports : List Report) :
    ∀ b ∈ run reports, ∃ r,
      reports.reverse.find? (fun r => decide (r.query.Get "name" = b.Name)) = some r ∧
      b.User = r.query.Get "user" ∧ b.IP = r.addr ∧ b.X = r.query.Get "x" ∧
      b.Y = r.query.Get "y" ∧ b.LastAlive = FormatInt r.now := by
  induction reports using List.reverseRecOn with
  | nil => intro b hb; simp [run, runFrom] at hb
  | append_singleton rs r ih =>
    intro b hb
    have hrun : run (rs ++ [r]) = (updateRobot r.query r.addr r.now (run rs)).2 :=
      runFrom_append_singleton [] rs r
    have hnodup : ((run rs).map Robot.Name).Nodup :=
      runFrom_names_nodup rs [] List.nodup_nil
    rw [hrun] at hb
    rw [List.reverse_concat, List.find?_cons]
    -- a record whose name is not the reported one is a record of the old registry
    have hother : b ∈ run rs → b.Name ≠ r.query.Get "name" → ∃ r1,
        (match decide (r.query.Get "name" = b.Name) with
          | true => some r
          | false => rs.reverse.find? (fun r => decide (r.query.Get "name" = b.Name))) = some r1 ∧
        b.User = r1.query.Get "user" ∧ b.IP = r1.addr ∧ b.X = r1.query.Get "x" ∧
        b.Y = r1.query.Get "y" ∧ b.LastAlive = FormatInt r1.now := by
      intro hmem hne
      have hd : decide (r.query.Get "name" = b.Name) = false := by
        simpa using fun h => hne h.symm
      rw [hd]
      exact ih b hmem
    by_cases h : ∃ c ∈ run rs, c.Name = r.query.Get "name"
    · obtain ⟨pre, old, post, hsplit, hpre, hold, hres⟩ :=
        updateRobot_snd_of_mem r.query r.addr r.now (run rs) h
      rw [hres] at hb
      rw [hsplit] at hnodup
      rcases List.mem_append.mp hb with hin | hin
      · exact hother (by rw [hsplit]; exact List.mem_append_left _ hin) (hpre b hin)
      · rcases List.mem_cons.mp hin with heq | hin1
        · have hd : decide (r.query.Get "name" = b.Name) = true := by
            rw [heq]; simpa using hold.symm
          rw [hd]
          exact ⟨r, rfl, by rw [heq]; rfl, by rw [heq]; rfl, by rw [heq]; rfl,
            by rw [heq]; rfl, by rw [heq]; rfl⟩
        · refine hother (by rw [hsplit]; simp [hin1]) ?_
          intro hname
          have hnd : (pre.map Robot.Name ++ old.Name :: post.map Robot.Name).Nodup := by
            simpa using hnodup
          have hnd1 := (List.nodup_cons.mp (List.nodup_append.mp hnd).2.1).1
          exact hnd1 (List.mem_map.mpr ⟨b, hin1, hname.trans hold.symm⟩)
    · have h1 : ∀ c ∈ run rs, c.Name ≠ r.query.Get "name" := fun c hc hn => h ⟨c, hc, hn⟩
      rw [updateRobot_snd_of_not_mem r.query r.addr r.now (run rs) h1] at hb
      rcases List.mem_append.mp hb with hin | hin
      · exact hother hin (h1 b hin)
      · have heq := List.mem_singleton.mp hin
        have hd : decide (r.query.Get "name" = b.Name) = true := by
          rw [heq]; simp
        rw [hd]
        exact ⟨r, rfl, by rw [heq], by rw [heq], by rw [heq], by rw [heq], by rw [heq]⟩

/-- C1. Latest-state tracking: after any finite sequence of reports served in
order from the empty registry, the registry holds exactly one record for each
name that occurs in the sequence and none for any other name, and every record's
User, IP, X, Y and LastAlive are those of the last report in the sequence that
carries the record's name, LastAlive being the decimal string of that report's
clock. -/
theorem latest_state_tracking (reports : List Report) :
    (∀ n, ((run reports).map Robot.Name).count n =
        if n ∈ reports.map (fun r => r.query.Get "name") then 1 else 0) ∧
      ∀ b ∈ run reports, ∃ r,
        reports.reverse.find? (fun r => decide (r.query.Get "name" = b.Name)) = some r ∧
        b.User = r.query.Get "user" ∧ b.IP = r.addr ∧ b.X = r.query.Get "x" ∧
        b.Y = r.query.Get "y" ∧ b.LastAlive = FormatInt r.now := by
  refine ⟨fun n => ?_, run_last_report reports⟩
  have hnodup : ((run reports).map Robot.Name).Nodup :=
    runFrom_names_nodup reports [] List.nodup_nil
  have hmem := mem_runFrom_names reports [] n
  by_cases hn : n ∈ reports.map (fun r => r.query.Get "name")
  · rw [if_pos hn]
    exact List.count_eq_one_of_mem hnodup (hmem.mpr (Or.inr hn))
  · rw [if_neg hn]
    refine List.count_eq_zero_of_not_mem (fun hin => ?_)
    rcases hmem.mp hin with h | h
    · simp at h
    · exact hn h

/-- C1, at three reports over two names: the record of r1 carries the data of
the third report, the last one named r1. -/
theorem latest_state_tracking_witness :
    ∃ r,
      [(⟨mkQuery "r1" "alice" "1" "2", "10.0.0.1", 100⟩ : Report),
        ⟨mkQuery "r2" "carol" "5" "6", "10.0.0.3", 150⟩,
        ⟨mkQuery "r1" "bob" "3" "4", "10.0.0.2", 200⟩].reverse.find?
          (fun r => decide (r.query.Get "name" = "r1")) = some r ∧
      "bob" = r.query.Get "user" ∧ "10.0.0.2" = r.addr ∧ "3" = r.query.Get "x" ∧
      "4" = r.query.Get "y" ∧ "200" = FormatInt r.now :=
  (latest_state_tracking
    [⟨mkQuery "r1" "alice" "1" "2", "10.0.0.1", 100⟩,
     ⟨mkQuery "r2" "carol" "5" "6", "10.0.0.3", 150⟩,
     ⟨mkQuery "r1" "bob" "3" "4", "10.0.0.2", 200⟩]).2
    ⟨"r1", "bob", "10.0.0.2", "3", "4", "true", "200"⟩ (by decide)

/-! ## Lemmas on strings and on the loops of the read endpoints -/

/-- Helper `String.intercalate.go` on a list extended at its end. -/
theorem intercalate_go_snoc (s : String) (l : List String) (acc a : String) :
    String.intercalate.go acc s (l ++ [a]) = String.intercalate.go acc s l ++ s ++ a := by
  induction l generalizing acc with
  | nil => simp [String.intercalate.go]
  | cons x l ih => simp [String.intercalate.go, ih]

/-- Function `String.intercalate` on a nonempty list extended at its end. -/
theorem intercalate_snoc (s : String) (l : List String) (a : String) (hl : l ≠ []) :
    String.intercalate s (l ++ [a]) = String.intercalate s l ++ s ++ a := by
  cases l with
  | nil => exact absurd rfl hl
  | cons x l => simp [String.intercalate, intercalate_go_snoc]

/-- Trimming the suffix that was just appended. -/
theorem TrimSuffix_append (x s : String) : TrimSuffix (x ++ s) s = x := by
  have hlen : (x.data ++ s.data).length - s.data.length = x.data.length := by simp
  have hsuf : HasSuffix (x ++ s) s = true := by
    simp [HasSuffix, List.drop_left]
  simp only [TrimSuffix, hsuf, if_true, String.data_append, hlen, List.take_left]

/-- What one iteration of the loop of `hostsJSON` appends is the entry and a comma. -/
theorem entry_chunk (ret : String) (bot : Robot) :
    (ret ++ ("\"" ++ bot.Name ++ "\":")) ++ ("\"" ++ bot.IP ++ "\",") =
      ret ++ entryText (bot.Name, bot.IP) ++ "," := by
  apply String.ext
  simp [entryText]

/-- The string built by the loop of `hostsJSON` on a nonempty registry. -/
theorem hostsJSON_loop (robots : List Robot) (hne : robots ≠ []) :
    robots.foldl
        (fun ret bot => (ret ++ ("\"" ++ bot.Name ++ "\":")) ++ ("\"" ++ bot.IP ++ "\",")) "\x7b" =
      "\x7b" ++ String.intercalate "," (robots.map (fun b => entryText (b.Name, b.IP))) ++ "," := by
  induction robots using List.reverseRecOn with
  | nil => exact absurd rfl hne
  | append_singleton rs b ih =>
    rw [List.foldl_append]
    simp only [List.foldl_cons, List.foldl_nil, List.map_append, List.map_cons, List.map_nil]
    rw [entry_chunk]
    by_cases hrs : rs = []
    · subst hrs
      simp [String.intercalate, String.intercalate.go]
    · have hmap : rs.map (fun b => entryText (b.Name, b.IP)) ≠ [] := by
        simpa using hrs
      rw [ih hrs, intercalate_snoc _ _ _ hmap]
      simp [String.append_assoc]

/-- The output of `hostsJSON` is the object text of the records' names and addresses. -/
theorem hostsJSON_eq_objectText (robots : List Robot) :
    hostsJSON robots = objectText (robots.map (fun b => (b.Name, b.IP))) := by
  by_cases hne : robots = []
  · subst hne
    decide
  · unfold hostsJSON objectText
    simp only []
    rw [hostsJSON_loop robots hne, TrimSuffix_append, List.map_map]
    rfl

/-- The loop of `hostsAliveJSON` is the loop of `hostsJSON` over the records whose
Alive is `"true"`. -/
theorem hostsAliveJSON_loop (robots : List Robot) (acc : String) :
    robots.foldl
        (fun ret bot =>
          if bot.Alive = "true" then
            (ret ++ ("\"" ++ bot.Name ++ "\":")) ++ ("\"" ++ bot.IP ++ "\",")
          else ret) acc =
      (robots.filter (fun b => decide (b.Alive = "true"))).foldl
        (fun ret bot => (ret ++ ("\"" ++ bot.Name ++ "\":")) ++ ("\"" ++ bot.IP ++ "\",")) acc := by
  induction robots generalizing acc with
  | nil => rfl
  | cons b rest ih =>
    by_cases hb : b.Alive = "true"
    · simp [List.filter, hb, ih]
    · simp [List.filter, hb, ih]

/-- Function `hostsAliveJSON` is `hostsJSON` of the records whose Alive is `"true"`. -/
theorem hostsAliveJSON_eq_filter (robots : List Robot) :
    hostsAliveJSON robots = hostsJSON (robots.filter (fun b => decide (b.Alive = "true"))) := by
  unfold hostsAliveJSON hostsJSON
  simp only []
  rw [hostsAliveJSON_loop]

/-- The entries written by the loop of `hostsJSON`. -/
theorem hostsJSONEntries_eq (robots : List Robot) :
    hostsJSONEntries robots = robots.map (fun b => (b.Name, b.IP)) := by
  have h : ∀ acc : List (String × String),
      robots.foldl (fun acc bot => acc ++ [(bot.Name, bot.IP)]) acc =
        acc ++ robots.map (fun b => (b.Name, b.IP)) := by
    induction robots with
    | nil => simp
    | cons b rest ih => intro acc; simp [ih]
  simpa [hostsJSONEntries] using h []

/-- The entries written by the loop of `hostsAliveJSON`. -/
theorem hostsAliveJSONEntries_eq (robots : List Robot) :
    hostsAliveJSONEntries robots =
      (robots.filter (fun b => decide (b.Alive = "true"))).map (fun b => (b.Name, b.IP)) := by
  have h : ∀ acc : List (String × String),
      robots.foldl
          (fun acc bot => if bot.Alive = "true" then acc ++ [(bot.Name, bot.IP)] else acc) acc =
        acc ++ (robots.filter (fun b => decide (b.Alive = "true"))).map
          (fun b => (b.Name, b.IP)) := by
    induction robots with
    | nil => simp
    | cons b rest ih =>
      intro acc
      by_cases hb : b.Alive = "true"
      · simp [List.filter, hb, ih]
      · simp [List.filter, hb, ih]
  simpa [hostsAliveJSONEntries] using h []

/-! ## Read endpoints: claims on `hostsJSON` and `hostsAliveJSON` -/

/-- C8, refuted at a registry of two records that share the name a: `hostsJSON`
writes two entries, and the records have one distinct name. -/
theorem hosts_entries_counterexample :
    hostsJSON [⟨"a", "u", "10.0.0.1", "1", "2", "true", "100"⟩,
               ⟨"a", "v", "10.0.0.2", "3", "4", "true", "200"⟩] =
        "\x7b\"a\":\"10.0.0.1\",\"a\":\"10.0.0.2\"\x7d" ∧
      (hostsJSONEntries [⟨"a", "u", "10.0.0.1", "1", "2", "true", "100"⟩,
                         ⟨"a", "v", "10.0.0.2", "3", "4", "true", "200"⟩]).length = 2 ∧
      distinctNames [⟨"a", "u", "10.0.0.1", "1", "2", "true", "100"⟩,
                     ⟨"a", "v", "10.0.0.2", "3", "4", "true", "200"⟩] = 1 ∧
      (hostsJSONEntries [⟨"a", "u", "10.0.0.1", "1", "2", "true", "100"⟩,
                         ⟨"a", "v", "10.0.0.2", "3", "4", "true", "200"⟩]).length ≠
        distinctNames [⟨"a", "u", "10.0.0.1", "1", "2", "true", "100"⟩,
                       ⟨"a", "v", "10.0.0.2", "3", "4", "true", "200"⟩] := by
  decide

/-- C8, amended. For every registry, `hostsJSON` returns the object text of one
entry for each record, in order, so the number of entries is the number of
records; when the records have pairwise distinct names it is the number of
distinct names, and so it is in every registry reached from the empty one by
`updateRobot` calls. -/
theorem hosts_entries_count (robots : List Robot) (reports : List Report) :
    hostsJSON robots = objectText (hostsJSONEntries robots) ∧
      hostsJSONEntries robots = robots.map (fun b => (b.Name, b.IP)) ∧
      (hostsJSONEntries robots).length = robots.length ∧
      ((robots.map Robot.Name).Nodup →
        (hostsJSONEntries robots).length = distinctNames robots) ∧
      hostsJSON (run reports) = objectText (hostsJSONEntries (run reports)) ∧
      (hostsJSONEntries (run reports)).length = distinctNames (run reports) := by
  have hrun : ((run reports).map Robot.Name).Nodup :=
    runFrom_names_nodup reports [] List.nodup_nil
  refine ⟨?_, hostsJSONEntries_eq robots, ?_, ?_, ?_, ?_⟩
  · rw [hostsJSON_eq_objectText, hostsJSONEntries_eq]
  · simp [hostsJSONEntries_eq]
  · intro h
    simp [hostsJSONEntries_eq, distinctNames, h.dedup]
  · rw [hostsJSON_eq_objectText, hostsJSONEntries_eq]
  · simp [hostsJSONEntries_eq, distinctNames, hrun.dedup]

/-- C8 amended, at a registry of two records that share the name a, where
`hostsJSON` writes the two entries, and at a registry of two records named a and
b, where the two entries are as many as the distinct names. -/
theorem hosts_entries_count_witness :
    hostsJSON [⟨"a", "u", "10.0.0.1", "1", "2", "true", "100"⟩,
               ⟨"a", "v", "10.0.0.2", "3", "4", "true", "200"⟩] =
        objectText [("a", "10.0.0.1"), ("a", "10.0.0.2")] ∧
      (hostsJSONEntries [⟨"a", "u", "10.0.0.1", "1", "2", "true", "100"⟩,
                         ⟨"a", "v", "10.0.0.2", "3", "4", "true", "200"⟩]).length = 2 ∧
      (hostsJSONEntries [⟨"a", "u", "10.0.0.1", "1", "2", "true", "100"⟩,
                         ⟨"b", "v", "10.0.0.2", "3", "4", "true", "200"⟩]).length =
        distinctNames [⟨"a", "u", "10.0.0.1", "1", "2", "true", "100"⟩,
                       ⟨"b", "v", "10.0.0.2", "3", "4", "true", "200"⟩] :=
  ⟨(hosts_entries_count
      [⟨"a", "u", "10.0.0.1", "1", "2", "true", "100"⟩,
       ⟨"a", "v", "10.0.0.2", "3", "4", "true", "200"⟩] []).1,
    (hosts_entries_count
      [⟨"a", "u", "10.0.0.1", "1", "2", "true", "100"⟩,
       ⟨"a", "v", "10.0.0.2", "3", "4", "true", "200"⟩] []).2.2.1,
    (hosts_entries_count
      [⟨"a", "u", "10.0.0.1", "1", "2", "true", "100"⟩,
       ⟨"b", "v", "10.0.0.2", "3", "4", "true", "200"⟩] []).2.2.2.1 (by decide)⟩

/-- C9. Alive map is a restriction of the full map: the entries that
`hostsAliveJSON` writes are those of the records whose Alive is the string
`"true"`, in registry order; its output is the object text of these entries, as
the output of `hostsJSON` is the object text of all entries; the alive entries
are a sub-sequence of all entries, and each of them is among all entries. -/
theorem alive_entries_restrict (robots : List Robot) :
    hostsAliveJSONEntries robots =
        (robots.filter (fun b => decide (b.Alive = "true"))).map (fun b => (b.Name, b.IP)) ∧
      hostsAliveJSON robots = objectText (hostsAliveJSONEntries robots) ∧
      hostsJSON robots = objectText (hostsJSONEntries robots) ∧
      List.Sublist (hostsAliveJSONEntries robots) (hostsJSONEntries robots) ∧
      hostsAliveJSONEntries robots ⊆ hostsJSONEntries robots := by
  have hsub : List.Sublist (hostsAliveJSONEntries robots) (hostsJSONEntries robots) := by
    rw [hostsAliveJSONEntries_eq, hostsJSONEntries_eq]
    exact List.Sublist.map _ (List.filter_sublist robots)
  refine ⟨hostsAliveJSONEntries_eq robots, ?_, ?_, hsub, hsub.subset⟩
  · rw [hostsAliveJSON_eq_filter, hostsJSON_eq_objectText, hostsAliveJSONEntries_eq]
  · rw [hostsJSON_eq_objectText, hostsJSONEntries_eq]

/-- C10. Exact output of `hostsJSON`: an opening brace, the entries of all records
in registry order, each a quoted name, a colon and a quoted address, separated by
single commas with none after the last, and a closing brace; `{}` for the empty
registry, and the two entries with one comma between them for a registry of two
records. -/
theorem hostsJSON_exact_output (robots : List Robot) (ra rb : Robot) :
    hostsJSON robots =
        "\x7b" ++ String.intercalate ","
          (robots.map (fun b => "\"" ++ b.Name ++ "\"" ++ ":" ++ "\"" ++ b.IP ++ "\"")) ++ "\x7d" ∧
      hostsJSON [] = "\x7b\x7d" ∧
      hostsJSON [ra, rb] =
        "\x7b" ++ "\"" ++ ra.Name ++ "\":\"" ++ ra.IP ++ "\"" ++ "," ++
          "\"" ++ rb.Name ++ "\":\"" ++ rb.IP ++ "\"" ++ "\x7d" := by
  refine ⟨?_, by decide, ?_⟩
  · rw [hostsJSON_eq_objectText, objectText, List.map_map]
    rfl
  · rw [hostsJSON_eq_objectText]
    apply String.ext
    simp [objectText, entryText, String.intercalate, String.intercalate.go]

/-! ## Growth, frame and idempotence of `updateRobot` -/

/-- The loop on a registry split at the first record with the reported name. -/
theorem updateLoop_split (query : Values) (addr : String) (now : Int)
    (pre : List Robot) (x : Robot) (post : List Robot)
    (hpre : ∀ b ∈ pre, b.Name ≠ query.Get "name") (hx : x.Name = query.Get "name") :
    updateLoop query addr now (pre ++ x :: post) =
      some (pre ++ updateFound query addr now x :: post) := by
  induction pre with
  | nil => simp [updateLoop, hx]
  | cons a pre ih =>
    have ha : a.Name ≠ query.Get "name" := hpre a (List.mem_cons_self a pre)
    have hrest : ∀ b ∈ pre, b.Name ≠ query.Get "name" :=
      fun b hb => hpre b (List.mem_cons_of_mem a hb)
    simp [updateLoop, ha, ih hrest]

/-- Function `updateRobot` on a registry split at the first record with the
reported name. -/
theorem updateRobot_split (query : Values) (addr : String) (now : Int)
    (pre : List Robot) (x : Robot) (post : List Robot)
    (hpre : ∀ b ∈ pre, b.Name ≠ query.Get "name") (hx : x.Name = query.Get "name") :
    updateRobot query addr now (pre ++ x :: post) =
      ("updated " ++ query.Get "name", pre ++ updateFound query addr now x :: post) := by
  simp [updateRobot, updateLoop_split query addr now pre x post hpre hx]

/-- The loop body applied twice is the loop body applied once. -/
theorem updateFound_idem (query : Values) (addr : String) (now : Int) (r : Robot) :
    updateFound query addr now (updateFound query addr now r) = updateFound query addr now r :=
  rfl

/-- C11. The registry only grows and keeps insertion order: the names before
`updateRobot` are a prefix of the names after it, the names after are the names
before or the names before followed by the reported name, and the length does
not decrease. -/
theorem names_prefix_after_update (query : Values) (addr : String) (now : Int)
    (robots : List Robot) :
    robots.map Robot.Name <+: ((updateRobot query addr now robots).2).map Robot.Name ∧
      (((updateRobot query addr now robots).2).map Robot.Name = robots.map Robot.Name ∨
        ((updateRobot query addr now robots).2).map Robot.Name =
          robots.map Robot.Name ++ [query.Get "name"]) ∧
      robots.length ≤ ((updateRobot query addr now robots).2).length := by
  have hnames := updateRobot_names query addr now robots
  have hlen : ((updateRobot query addr now robots).2).length =
      (((updateRobot query addr now robots).2).map Robot.Name).length := by simp
  by_cases hmem : query.Get "name" ∈ robots.map Robot.Name
  · rw [if_pos hmem] at hnames
    refine ⟨by rw [hnames], Or.inl hnames, ?_⟩
    rw [hlen, hnames]; simp
  · rw [if_neg hmem] at hnames
    refine ⟨by rw [hnames]; exact List.prefix_append _ _, Or.inr hnames, ?_⟩
    rw [hlen, hnames]; simp

/-- C15. Frame of an update: when some record carries the reported name,
`updateRobot` keeps the length and leaves every record other than the first one
with that name, a later record with the same name included, as it was, field by
field, at its index; the first record with that name is rewritten by the loop
body. -/
theorem update_frame (query : Values) (addr : String) (now : Int) (robots : List Robot)
    (h : ∃ b ∈ robots, b.Name = query.Get "name") :
    ((updateRobot query addr now robots).2).length = robots.length ∧
      (∀ j, j ≠ robots.findIdx (fun b => decide (b.Name = query.Get "name")) →
        ((updateRobot query addr now robots).2)[j]? = robots[j]?) ∧
      ((updateRobot query addr now robots).2)[
          robots.findIdx (fun b => decide (b.Name = query.Get "name"))]? =
        (robots[robots.findIdx (fun b => decide (b.Name = query.Get "name"))]?).map
          (updateFound query addr now) := by
  obtain ⟨pre, old, post, hrobots, hpre, hold, hres⟩ :=
    updateRobot_snd_of_mem query addr now robots h
  have hpre1 : ∀ b ∈ pre, (fun b : Robot => decide (b.Name = query.Get "name")) b = false := by
    intro b hb
    simpa using hpre b hb
  have hold1 : (fun b : Robot => decide (b.Name = query.Get "name")) old = true := by
    simpa using hold
  have hidx : robots.findIdx (fun b => decide (b.Name = query.Get "name")) = pre.length := by
    rw [hrobots]; exact findIdx_split _ pre old post hpre1 hold1
  rw [hidx, hres, hrobots]
  refine ⟨by simp, ?_, ?_⟩
  swap
  · rw [List.getElem?_append_right (Nat.le_refl _),
      List.getElem?_append_right (Nat.le_refl _)]
    simp
  intro j hj
  rcases Nat.lt_or_gt_of_ne hj with hlt | hgt
  · rw [List.getElem?_append_left hlt, List.getElem?_append_left hlt]
  · rw [List.getElem?_append_right (Nat.le_of_lt hgt),
      List.getElem?_append_right (Nat.le_of_lt hgt)]
    obtain ⟨k, hk⟩ : ∃ k, j - pre.length = k + 1 := ⟨j - pre.length - 1, by omega⟩
    rw [hk]
    rfl

/-- C15, at a registry with two records named r1 and one named r2 between them:
the update of r1 rewrites index 0 and leaves index 2, also named r1, as it was. -/
theorem update_frame_witness :
    ((updateRobot (mkQuery "r1" "bob" "3" "4") "10.0.0.2" 200
        [⟨"r1", "alice", "10.0.0.1", "1", "2", "true", "100"⟩,
         ⟨"r2", "carol", "10.0.0.3", "5", "6", "true", "150"⟩,
         ⟨"r1", "dave", "10.0.0.4", "7", "8", "old", "50"⟩]).2)[2]? =
      some ⟨"r1", "dave", "10.0.0.4", "7", "8", "old", "50"⟩ :=
  (update_frame (mkQuery "r1" "bob" "3" "4") "10.0.0.2" 200
    [⟨"r1", "alice", "10.0.0.1", "1", "2", "true", "100"⟩,
     ⟨"r2", "carol", "10.0.0.3", "5", "6", "true", "150"⟩,
     ⟨"r1", "dave", "10.0.0.4", "7", "8", "old", "50"⟩]
    ⟨⟨"r1", "alice", "10.0.0.1", "1", "2", "true", "100"⟩,
      List.mem_cons_self _ _, rfl⟩).2.1 2 (by decide)

/-- C17. Idempotence of a repeated report: `updateRobot` applied a second time with
the same query, address and clock leaves the registry as the first application
left it, and the second application answers `"updated "` followed by the name. -/
theorem repeated_report_idempotent (query : Values) (addr : String) (now : Int)
    (robots : List Robot) :
    (updateRobot query addr now (updateRobot query addr now robots).2).2 =
        (updateRobot query addr now robots).2 ∧
      (updateRobot query addr now (updateRobot query addr now robots).2).1 =
        "updated " ++ query.Get "name" := by
  by_cases h : ∃ b ∈ robots, b.Name = query.Get "name"
  · obtain ⟨pre, old, post, _, hpre, hold, hres⟩ :=
      updateRobot_snd_of_mem query addr now robots h
    rw [hres, updateRobot_split query addr now pre _ post hpre
      ((updateFound_Name query addr now old).trans hold), updateFound_idem]
    exact ⟨rfl, rfl⟩
  · have h1 : ∀ b ∈ robots, b.Name ≠ query.Get "name" := fun b hb hname => h ⟨b, hb, hname⟩
    rw [updateRobot_snd_of_not_mem query addr now robots h1]
    unfold addRobot
    simp only []
    rw [updateRobot_split query addr now robots _ [] h1 rfl]
    exact ⟨rfl, rfl⟩

/-! ## Text rendering and the alive filter on reachable registries -/

/-- Method `Robot.String` writes the block of the record. -/
theorem Robot_String_eq_blockText (bot : Robot) : bot.String = blockText bot := by
  apply String.ext
  simp [Robot.String, blockText, String.join]

/-- The string built by the loop of `textFull`. -/
theorem textFull_loop (robots : List Robot) (acc : String) :
    robots.foldl (fun ret bot => ret ++ bot.String) acc =
      acc ++ String.join (robots.map blockText) := by
  induction robots generalizing acc with
  | nil => simp [String.join]
  | cons b rest ih =>
    rw [List.foldl_cons, ih, Robot_String_eq_blockText]
    apply String.ext
    simp [String.data_join]

/-- C14. Text rendering: `textFull` is the concatenation, in registry order, of
one block per record; the block is the Name and a newline, then the tab-indented,
newline-ended lines `User: `, `IP: `, `Coordinates: (X, Y)`, `Alive: ` and
`Time Last Alive: ` with the record's values, in that order; the empty registry
renders as the empty string. -/
theorem textFull_blocks (robots : List Robot) (bot : Robot) :
    textFull robots = String.join (robots.map blockText) ∧
      blockText bot =
        bot.Name ++ "\n" ++
        "\tUser: " ++ bot.User ++ "\n" ++
        "\tIP: " ++ bot.IP ++ "\n" ++
        "\tCoordinates: (" ++ bot.X ++ ", " ++ bot.Y ++ ")\n" ++
        "\tAlive: " ++ bot.Alive ++ "\n" ++
        "\tTime Last Alive: " ++ bot.LastAlive ++ "\n" ∧
      textFull [] = "" := by
  refine ⟨?_, ?_, rfl⟩
  · rw [textFull, textFull_loop]
    simp
  · apply String.ext
    simp [blockText, String.join]

/-- C16. The alive filter never filters on reachable states: on every registry
reached from the empty one by `updateRobot` calls, whatever the clock values of
the reports, `hostsAliveJSON` returns the string that `hostsJSON` returns. -/
theorem alive_filter_idle_on_reachable (reports : List Report) :
    hostsAliveJSON (run reports) = hostsJSON (run reports) := by
  have hall := runFrom_all_alive reports [] (by simp)
  have hfilter : (run reports).filter (fun b => decide (b.Alive = "true")) = run reports := by
    apply List.filter_eq_self.mpr
    intro b hb
    have hb1 : b.Alive = "true" := hall b.Alive (List.mem_map.mpr ⟨b, hb, rfl⟩)
    simpa using hb1
  rw [hostsAliveJSON_eq_filter, hfilter]

/-! ## Lemmas on UTF-8 -/

/-- The code of a character is a Unicode scalar value. -/
theorem char_toNat_valid (c : Char) :
    c.toNat < 0xD800 ∨ (0xDFFF < c.toNat ∧ c.toNat < 0x110000) := by
  have h := c.valid
  simp only [UInt32.isValidChar, Nat.isValidChar] at h
  exact h

/-- Decoding a well-formed two-byte sequence. -/
theorem DecodeRune_two (p0 b1 : Nat) (rest : List Nat)
    (h0 : 0xC2 ≤ p0 ∧ p0 < 0xE0) (h1 : 0x80 ≤ b1 ∧ b1 ≤ 0xBF) :
    DecodeRune (p0 :: b1 :: rest) = (p0 % 32 * 64 + b1 % 64, 2) := by
  have e1 : ¬ p0 < 128 := by omega
  have e2 : ¬ (p0 < 194 ∨ 244 < p0) := by omega
  have e3 : p0 < 224 := h0.2
  have e4 : ¬ p0 = 224 := by omega
  have e5 : ¬ p0 = 240 := by omega
  have e6 : ¬ p0 = 237 := by omega
  have e7 : ¬ p0 = 244 := by omega
  have e8 : ¬ (b1 < 128 ∨ 191 < b1) := by omega
  simp [DecodeRune, e1, e2, e3, e4, e5, e6, e7, e8]

/-- Decoding a well-formed three-byte sequence. -/
theorem DecodeRune_three (p0 b1 b2 : Nat) (rest : List Nat)
    (h0 : 0xE0 ≤ p0 ∧ p0 < 0xF0)
    (h1 : 0x80 ≤ b1 ∧ b1 ≤ 0xBF ∧ (p0 = 0xE0 → 0xA0 ≤ b1) ∧ (p0 = 0xED → b1 ≤ 0x9F))
    (h2 : 0x80 ≤ b2 ∧ b2 ≤ 0xBF) :
    DecodeRune (p0 :: b1 :: b2 :: rest) = (p0 % 16 * 4096 + b1 % 64 * 64 + b2 % 64, 3) := by
  have e1 : ¬ p0 < 128 := by omega
  have e2 : ¬ (p0 < 194 ∨ 244 < p0) := by omega
  have e3 : ¬ p0 < 224 := by omega
  have e4 : p0 < 240 := h0.2
  have e5 : ¬ p0 = 240 := by omega
  have e7 : ¬ p0 = 244 := by omega
  have e9 : ¬ (b2 < 128 ∨ 191 < b2) := by omega
  by_cases c1 : p0 = 224
  · have e8 : ¬ (b1 < 160 ∨ 191 < b1) := by omega
    have e6 : ¬ p0 = 237 := by omega
    simp [DecodeRune, e1, e2, e3, e4, e5, e6, e7, e8, e9, c1]
  · by_cases c2 : p0 = 237
    · have e8 : ¬ (b1 < 128 ∨ 159 < b1) := by omega
      simp [DecodeRune, e1, e2, e3, e4, e5, e7, e8, e9, c2]
    · have e8 : ¬ (b1 < 128 ∨ 191 < b1) := by omega
      simp [DecodeRune, e1, e2, e3, e4, e5, e7, e8, e9, c1, c2]

/-- Decoding a well-formed four-byte sequence. -/
theorem DecodeRune_four (p0 b1 b2 b3 : Nat) (rest : List Nat)
    (h0 : 0xF0 ≤ p0 ∧ p0 ≤ 0xF4)
    (h1 : 0x80 ≤ b1 ∧ b1 ≤ 0xBF ∧ (p0 = 0xF0 → 0x90 ≤ b1) ∧ (p0 = 0xF4 → b1 ≤ 0x8F))
    (h2 : 0x80 ≤ b2 ∧ b2 ≤ 0xBF) (h3 : 0x80 ≤ b3 ∧ b3 ≤ 0xBF) :
    DecodeRune (p0 :: b1 :: b2 :: b3 :: rest) =
      (p0 % 8 * 262144 + b1 % 64 * 4096 + b2 % 64 * 64 + b3 % 64, 4) := by
  have e1 : ¬ p0 < 128 := by omega
  have e2 : ¬ (p0 < 194 ∨ 244 < p0) := by omega
  have e3 : ¬ p0 < 224 := by omega
  have e4 : ¬ p0 < 240 := by omega
  have e5 : ¬ p0 = 224 := by omega
  have e6 : ¬ p0 = 237 := by omega
  have e9 : ¬ (b2 < 128 ∨ 191 < b2) := by omega
  have e10 : ¬ (b3 < 128 ∨ 191 < b3) := by omega
  by_cases c1 : p0 = 240
  · have e8 : ¬ (b1 < 144 ∨ 191 < b1) := by omega
    have e7 : ¬ p0 = 244 := by omega
    simp [DecodeRune, e1, e2, e3, e4, e5, e6, e7, e8, e9, e10, c1]
  · by_cases c2 : p0 = 244
    · have e8 : ¬ (b1 < 128 ∨ 143 < b1) := by omega
      simp [DecodeRune, e1, e2, e3, e4, e5, e6, e8, e9, e10, c2]
    · have e8 : ¬ (b1 < 128 ∨ 191 < b1) := by omega
      simp [DecodeRune, e1, e2, e3, e4, e5, e6, e8, e9, e10, c1, c2]

/-- What `EncodeRune` writes for a scalar value decodes to it, with the width
written, whatever follows. -/
theorem DecodeRune_EncodeRune (r : Nat) (rest : List Nat)
    (hr : r < 0xD800 ∨ (0xDFFF < r ∧ r < 0x110000)) :
    DecodeRune (EncodeRune r ++ rest) = (r, (EncodeRune r).length) := by
  by_cases h1 : r ≤ 0x7F
  · have e1 : r < 128 := by omega
    simp [EncodeRune, h1, DecodeRune, e1]
  · by_cases h2 : r ≤ 0x7FF
    · simp only [EncodeRune, h1, h2, if_true, if_false, List.cons_append, List.nil_append,
        List.length_cons, List.length_nil]
      rw [DecodeRune_two _ _ _ (by omega) (by omega)]
      congr 1
      omega
    · have h3 : ¬ (r > 0x10FFFF ∨ (0xD800 ≤ r ∧ r ≤ 0xDFFF)) := by omega
      by_cases h4 : r ≤ 0xFFFF
      · simp only [EncodeRune, h1, h2, h3, h4, if_true, if_false, List.cons_append,
          List.nil_append, List.length_cons, List.length_nil]
        rw [DecodeRune_three _ _ _ _ (by omega) (by omega) (by omega)]
        congr 1
        omega
      · simp only [EncodeRune, h1, h2, h3, h4, if_true, if_false, List.cons_append,
          List.nil_append, List.length_cons, List.length_nil]
        rw [DecodeRune_four _ _ _ _ _ (by omega) (by omega) (by omega) (by omega)]
        congr 1
        omega

/-! ## Lemmas on the JSON string literal of a well-formed string -/

/-- What `EncodeRune` writes for a rune that is not ASCII: at least two bytes,
the first of which is not ASCII. -/
theorem EncodeRune_head (r : Nat) (h : ¬ r < 0x80) :
    ∃ b b1 tail, EncodeRune r = b :: b1 :: tail ∧ 0xC0 ≤ b := by
  unfold EncodeRune
  split_ifs with h1 h2 h3 h4
  · omega
  · exact ⟨_, _, _, rfl, by omega⟩
  · exact ⟨_, _, _, rfl, by omega⟩
  · exact ⟨_, _, _, rfl, by omega⟩
  · exact ⟨_, _, _, rfl, by omega⟩

/-- One iteration of the encoder's loop on an ASCII byte. -/
theorem stringLoop_ascii (f b : Nat) (rest : List Nat) (hb : b < 0x80) :
    stringLoop (f + 1) (b :: rest) = escapeRune b ++ stringLoop f rest := by
  simp only [stringLoop, hb, if_true, escapeRune]
  split_ifs <;> simp

/-- One iteration of the encoder's loop on the encoding of a character that is
not ASCII. -/
theorem stringLoop_multi (f r : Nat) (rest : List Nat)
    (hr : r < 0xD800 ∨ (0xDFFF < r ∧ r < 0x110000)) (h : ¬ r < 0x80) :
    stringLoop (f + 1) (EncodeRune r ++ rest) = escapeRune r ++ stringLoop f rest := by
  obtain ⟨b, b1, tail, hbt, hb⟩ := EncodeRune_head r h
  have hdec := DecodeRune_EncodeRune r rest hr
  rw [hbt] at hdec ⊢
  simp only [List.cons_append] at hdec ⊢
  have hb1 : ¬ b < 0x80 := by omega
  have hsize : ¬ (r = RuneError ∧ tail.length + 1 + 1 = 1) := by omega
  have htake : List.take (tail.length + 1 + 1) (b :: b1 :: (tail ++ rest)) = b :: b1 :: tail := by
    simp
  have hdrop : List.drop (tail.length + 1 + 1) (b :: b1 :: (tail ++ rest)) = rest := by
    simp
  simp only [stringLoop, hb1, if_false, hdec, hsize, List.length_cons, htake, hdrop,
    escapeRune, h]
  split_ifs
  · rfl
  · rw [hbt]

/-- The encoder's loop on the UTF-8 encoding of a list of characters writes each
character or its escape. -/
theorem stringLoop_utf8 (cs : List Char) (fuel : Nat) (h : cs.length ≤ fuel) :
    stringLoop fuel (cs.flatMap (fun c => EncodeRune c.toNat)) =
      cs.flatMap (fun c => escapeRune c.toNat) := by
  induction cs generalizing fuel with
  | nil => cases fuel <;> simp [stringLoop]
  | cons c cs ih =>
    obtain ⟨f, rfl⟩ : ∃ f, fuel = f + 1 := ⟨fuel - 1, by simp at h; omega⟩
    have hf : cs.length ≤ f := by simp at h; omega
    simp only [List.flatMap_cons]
    by_cases hc : c.toNat < 0x80
    · have henc : EncodeRune c.toNat = [c.toNat] := by
        have : c.toNat ≤ 0x7F := by omega
        simp [EncodeRune, this]
      rw [henc, List.singleton_append, stringLoop_ascii f _ _ hc, ih f hf]
    · rw [stringLoop_multi f _ _ (char_toNat_valid c) hc, ih f hf]

/-- The value of a digit of the table `hex`. -/
theorem hexVal_hex (n : Nat) (h : n < 16) : hexVal (hex n) = some n := by
  interval_cases n <;> rfl

/-- Function `getu4` on an escape written with digits of the table `hex`. -/
theorem getu4_hex (a b c d : Nat) (more : List Nat)
    (ha : a < 16) (hb : b < 16) (hc : c < 16) (hd : d < 16) :
    getu4 (0x5C :: 0x75 :: hex a :: hex b :: hex c :: hex d :: more) =
      some (((a * 16 + b) * 16 + c) * 16 + d) := by
  simp [getu4, hexVal_hex, ha, hb, hc, hd]

/-- One iteration of the decoder's loop on an ASCII byte that the encoder writes
as it is. -/
theorem stringBody_safe (f r : Nat) (more : List Nat) (hr : r < 0x80)
    (hs : htmlSafeSet r = true) :
    stringBody (f + 1) (r :: more) = (stringBody f more).map (fun p => (r :: p.1, p.2)) := by
  simp only [htmlSafeSet, decide_eq_true_eq] at hs
  have h1 : ¬ r = 0x22 := by omega
  have h2 : ¬ r = 0x5C := by omega
  have h3 : ¬ r < 0x20 := by omega
  simp only [stringBody, h1, h2, h3, hr, if_true, if_false]

/-- One iteration of the decoder's loop on a one-letter escape. -/
theorem stringBody_simple (f e b : Nat) (more : List Nat) (he : simpleEscape e = some b) :
    stringBody (f + 1) (0x5C :: e :: more) =
      (stringBody f more).map (fun p => (b :: p.1, p.2)) := by
  have h1 : ¬ e = 0x75 := by
    intro h
    rw [h] at he
    simp [simpleEscape] at he
  simp [stringBody, h1, he]

/-- One iteration of the decoder's loop on a `\u` escape of a rune that is no
surrogate. -/
theorem stringBody_u4 (f a b c d : Nat) (more : List Nat)
    (ha : a < 16) (hb : b < 16) (hc : c < 16) (hd : d < 16)
    (hs : ¬ (0xD800 ≤ ((a * 16 + b) * 16 + c) * 16 + d ∧
      ((a * 16 + b) * 16 + c) * 16 + d < 0xE000)) :
    stringBody (f + 1) (0x5C :: 0x75 :: hex a :: hex b :: hex c :: hex d :: more) =
      (stringBody f more).map
        (fun p => (EncodeRune (((a * 16 + b) * 16 + c) * 16 + d) ++ p.1, p.2)) := by
  simp only [stringBody, getu4_hex _ _ _ _ _ ha hb hc hd, List.drop_succ_cons, List.drop_zero]
  simp [hs]

/-- One iteration of the decoder's loop on the encoding of a character that is
not ASCII, written as it is. -/
theorem stringBody_multi (f r : Nat) (more : List Nat)
    (hr : r < 0xD800 ∨ (0xDFFF < r ∧ r < 0x110000)) (h : ¬ r < 0x80) :
    stringBody (f + 1) (EncodeRune r ++ more) =
      (stringBody f more).map (fun p => (EncodeRune r ++ p.1, p.2)) := by
  obtain ⟨b, b1, tail, hbt, hb⟩ := EncodeRune_head r h
  have hdec := DecodeRune_EncodeRune r more hr
  rw [hbt] at hdec
  simp only [List.cons_append] at hdec
  have h1 : ¬ b = 0x22 := by omega
  have h2 : ¬ b = 0x5C := by omega
  have h3 : ¬ b < 0x20 := by omega
  have h4 : ¬ b < 0x80 := by omega
  have hdrop : List.drop (tail.length + 1 + 1) (b :: b1 :: (tail ++ more)) = more := by
    simp
  rw [hbt]
  simp only [List.cons_append]
  simp only [stringBody, h1, h2, h3, h4, if_false, hdec, List.length_cons, hdrop, hbt,
    List.cons_append]

/-- One iteration of the decoder's loop on what the encoder writes for a
character: the character's encoding is read back. -/
theorem stringBody_escapeRune (f r : Nat) (more : List Nat)
    (hr : r < 0xD800 ∨ (0xDFFF < r ∧ r < 0x110000)) :
    stringBody (f + 1) (escapeRune r ++ more) =
      (stringBody f more).map (fun p => (EncodeRune r ++ p.1, p.2)) := by
  by_cases hc : r < 0x80
  · have henc : EncodeRune r = [r] := by
      have : r ≤ 0x7F := by omega
      simp [EncodeRune, this]
    rw [henc]
    by_cases hs : htmlSafeSet r = true
    · simp only [escapeRune, hc, hs, if_true, List.singleton_append]
      exact stringBody_safe f r more hc hs
    · simp only [escapeRune, hc, hs, if_true, if_false]
      by_cases e1 : r = 0x5C ∨ r = 0x22
      · simp only [e1, if_true, List.cons_append, List.nil_append, List.singleton_append]
        exact stringBody_simple f r r more (by rcases e1 with h | h <;> rw [h] <;> rfl)
      · by_cases e2 : r = 0x0A
        · subst e2
          exact stringBody_simple f 0x6E 0x0A more rfl
        · by_cases e3 : r = 0x0D
          · subst e3
            exact stringBody_simple f 0x72 0x0D more rfl
          · by_cases e4 : r = 0x09
            · subst e4
              exact stringBody_simple f 0x74 0x09 more rfl
            · simp only [e1, e2, e3, e4, if_false, List.cons_append, List.nil_append,
                List.singleton_append]
              have hu := stringBody_u4 f 0 0 (r / 16) (r % 16) more (by omega) (by omega)
                (by omega) (by omega) (by omega)
              have hval : ((0 * 16 + 0) * 16 + r / 16) * 16 + r % 16 = r := by omega
              rw [hval, henc] at hu
              exact hu
  · by_cases hl : r = 0x2028 ∨ r = 0x2029
    · simp only [escapeRune, hc, hl, if_true, if_false, List.cons_append, List.nil_append]
      have hu := stringBody_u4 f 2 0 2 (r % 16) more (by omega) (by omega)
        (by omega) (by omega) (by omega)
      have hval : ((2 * 16 + 0) * 16 + 2) * 16 + r % 16 = r := by omega
      rw [hval] at hu
      exact hu
    · simp only [escapeRune, hc, hl, if_false]
      exact stringBody_multi f r more hr hc

/-- The decoder reads back the string whose literal the encoder wrote: on the
escaped characters, a closing quote and the rest of the input, it returns the
UTF-8 encoding of the characters and the rest. -/
theorem stringBody_utf8 (cs : List Char) (fuel : Nat) (rest : List Nat)
    (h : cs.length < fuel) :
    stringBody fuel (cs.flatMap (fun c => escapeRune c.toNat) ++ 0x22 :: rest) =
      some (cs.flatMap (fun c => EncodeRune c.toNat), rest) := by
  induction cs generalizing fuel with
  | nil =>
    obtain ⟨f, rfl⟩ : ∃ f, fuel = f + 1 := ⟨fuel - 1, by simp at h; omega⟩
    simp [stringBody]
  | cons c cs ih =>
    obtain ⟨f, rfl⟩ : ∃ f, fuel = f + 1 := ⟨fuel - 1, by simp at h; omega⟩
    have hf : cs.length < f := by simp at h; omega
    simp only [List.flatMap_cons, List.append_assoc]
    rw [stringBody_escapeRune f _ _ (char_toNat_valid c), ih f hf]
    rfl

/-- What the encoder writes for a character is at least one byte. -/
theorem escapeRune_length (r : Nat) : 1 ≤ (escapeRune r).length := by
  unfold escapeRune EncodeRune
  split_ifs <;> simp

/-- The escaped characters are at least as many bytes as there are characters. -/
theorem escaped_length (cs : List Char) :
    cs.length ≤ (cs.flatMap (fun c => escapeRune c.toNat)).length := by
  induction cs with
  | nil => simp
  | cons c cs ih =>
    have h1 := escapeRune_length c.toNat
    simp only [List.flatMap_cons, List.length_append, List.length_cons]
    omega

/-- What `EncodeRune` writes is at least one byte. -/
theorem EncodeRune_length (r : Nat) : 1 ≤ (EncodeRune r).length := by
  unfold EncodeRune
  split_ifs <;> simp

/-- The UTF-8 encoding is at least as many bytes as there are characters. -/
theorem utf8_length (cs : List Char) :
    cs.length ≤ (cs.flatMap (fun c => EncodeRune c.toNat)).length := by
  induction cs with
  | nil => simp
  | cons c cs ih =>
    have h1 := EncodeRune_length c.toNat
    simp only [List.flatMap_cons, List.length_append, List.length_cons]
    omega

/-- The JSON string literal of the Go string of a text: the escaped characters
between quotes. -/
theorem encodeString_goString (s : String) :
    encodeString (goString s) = 0x22 :: (escaped s ++ [0x22]) := by
  unfold encodeString goString escaped
  rw [stringLoop_utf8 s.data _ (utf8_length s.data)]
  rfl

/-- The decoder reads the literal that the encoder wrote for a text, after its
opening quote, with the length of the input as fuel. -/
theorem stringBody_literal (s : String) (rest : List Nat) :
    stringBody (escaped s ++ 0x22 :: rest).length (escaped s ++ 0x22 :: rest) =
      some (goString s, rest) := by
  unfold escaped goString
  apply stringBody_utf8
  have h := escaped_length s.data
  simp only [List.length_append, List.length_cons]
  omega
/-! ## Lemmas on the decoding of what `json.Marshal` wrote -/

/-- White space is skipped up to a byte that is none. -/
theorem skipSpace_cons (c : Nat) (rest : List Nat) (h : isSpace c = false) :
    skipSpace (c :: rest) = c :: rest := by
  simp [skipSpace, List.dropWhile, h]

/-- The decoder reads a key written without escapes. -/
theorem stringBody_key (k : String) (hk1 : escaped k = ascii k) (hk2 : goString k = ascii k)
    (rest : List Nat) :
    stringBody (ascii k ++ 0x22 :: rest).length (ascii k ++ 0x22 :: rest) =
      some (ascii k, rest) := by
  have h := stringBody_literal k rest
  rw [hk1, hk2] at h
  exact h

/-- The decoder reads the literal of a text as a value. -/
theorem value_string (g : Nat) (s : String) (rest : List Nat) :
    value (g + 1) (0x22 :: (escaped s ++ 0x22 :: rest)) =
      some (JValue.string (goString s), rest) := by
  have h1 : ¬ ((0x22 : Nat) = 0x7B) := by decide
  have h2 : ¬ ((0x22 : Nat) = 0x5B) := by decide
  simp only [value, h1, h2, if_false, if_true, stringBody_literal, Option.map]

/-- One member of an object that is followed by another one. -/
theorem members_step (g n : Nat) (k : String) (hk1 : escaped k = ascii k)
    (hk2 : goString k = ascii k) (s : String) (more : List Nat) :
    members (value (g + 1)) (n + 1)
        (0x22 :: (ascii k ++ 0x22 :: 0x3A :: 0x22 :: (escaped s ++ 0x22 :: 0x2C :: 0x22 :: more))) =
      (members (value (g + 1)) n (0x22 :: more)).map
        (fun p => ((ascii k, JValue.string (goString s)) :: p.1, p.2)) := by
  simp only [members, stringBody_key k hk1 hk2]
  rw [skipSpace_cons 0x3A _ (by decide)]
  simp only []
  rw [skipSpace_cons 0x22 _ (by decide), value_string]
  simp only []
  rw [skipSpace_cons 0x2C _ (by decide)]
  simp only []
  rw [skipSpace_cons 0x22 _ (by decide)]

/-- The last member of an object. -/
theorem members_last (g n : Nat) (k : String) (hk1 : escaped k = ascii k)
    (hk2 : goString k = ascii k) (s : String) (more : List Nat) :
    members (value (g + 1)) (n + 1)
        (0x22 :: (ascii k ++ 0x22 :: 0x3A :: 0x22 :: (escaped s ++ 0x22 :: 0x7D :: more))) =
      some ([(ascii k, JValue.string (goString s))], more) := by
  simp only [members, stringBody_key k hk1 hk2]
  rw [skipSpace_cons 0x3A _ (by decide)]
  simp only []
  rw [skipSpace_cons 0x22 _ (by decide), value_string]
  simp only []
  rw [skipSpace_cons 0x7D _ (by decide)]

/-- The object that the encoder writes for a record of the registry, byte by
byte: the keys as they are and the values escaped. -/
theorem encodeRobot_raw (r : Robot) (rest : List Nat) :
    encodeRobot r.raw ++ rest =
      0x7B :: 0x22 :: (ascii "Name" ++ 0x22 :: 0x3A :: 0x22 :: (escaped r.Name ++
      0x22 :: 0x2C :: 0x22 :: (ascii "User" ++ 0x22 :: 0x3A :: 0x22 :: (escaped r.User ++
      0x22 :: 0x2C :: 0x22 :: (ascii "IP" ++ 0x22 :: 0x3A :: 0x22 :: (escaped r.IP ++
      0x22 :: 0x2C :: 0x22 :: (ascii "X" ++ 0x22 :: 0x3A :: 0x22 :: (escaped r.X ++
      0x22 :: 0x2C :: 0x22 :: (ascii "Y" ++ 0x22 :: 0x3A :: 0x22 :: (escaped r.Y ++
      0x22 :: 0x2C :: 0x22 :: (ascii "Alive" ++ 0x22 :: 0x3A :: 0x22 :: (escaped r.Alive ++
      0x22 :: 0x2C :: 0x22 :: (ascii "LastAlive" ++ 0x22 :: 0x3A :: 0x22 ::
        (escaped r.LastAlive ++ 0x22 :: 0x7D :: rest)))))))))))))) := by
  have l1 : ascii "\x7b\"Name\":" = 0x7B :: 0x22 :: (ascii "Name" ++ [0x22, 0x3A]) := by decide
  have l2 : ascii ",\"User\":" = 0x2C :: 0x22 :: (ascii "User" ++ [0x22, 0x3A]) := by decide
  have l3 : ascii ",\"IP\":" = 0x2C :: 0x22 :: (ascii "IP" ++ [0x22, 0x3A]) := by decide
  have l4 : ascii ",\"X\":" = 0x2C :: 0x22 :: (ascii "X" ++ [0x22, 0x3A]) := by decide
  have l5 : ascii ",\"Y\":" = 0x2C :: 0x22 :: (ascii "Y" ++ [0x22, 0x3A]) := by decide
  have l6 : ascii ",\"Alive\":" = 0x2C :: 0x22 :: (ascii "Alive" ++ [0x22, 0x3A]) := by decide
  have l7 : ascii ",\"LastAlive\":" = 0x2C :: 0x22 :: (ascii "LastAlive" ++ [0x22, 0x3A]) := by
    decide
  have l8 : ascii "\x7d" = [0x7D] := by decide
  simp only [encodeRobot, Robot.raw, encodeString_goString, l1, l2, l3, l4, l5, l6, l7, l8,
    List.append_assoc, List.cons_append, List.nil_append]

/-- The decoder reads the members of the object that the encoder wrote for a
record. -/
theorem members_robot (g fuel : Nat) (hf : 7 ≤ fuel) (r : Robot) (rest : List Nat) :
    members (value (g + 1)) fuel
      (0x22 :: (ascii "Name" ++ 0x22 :: 0x3A :: 0x22 :: (escaped r.Name ++
      0x22 :: 0x2C :: 0x22 :: (ascii "User" ++ 0x22 :: 0x3A :: 0x22 :: (escaped r.User ++
      0x22 :: 0x2C :: 0x22 :: (ascii "IP" ++ 0x22 :: 0x3A :: 0x22 :: (escaped r.IP ++
      0x22 :: 0x2C :: 0x22 :: (ascii "X" ++ 0x22 :: 0x3A :: 0x22 :: (escaped r.X ++
      0x22 :: 0x2C :: 0x22 :: (ascii "Y" ++ 0x22 :: 0x3A :: 0x22 :: (escaped r.Y ++
      0x22 :: 0x2C :: 0x22 :: (ascii "Alive" ++ 0x22 :: 0x3A :: 0x22 :: (escaped r.Alive ++
      0x22 :: 0x2C :: 0x22 :: (ascii "LastAlive" ++ 0x22 :: 0x3A :: 0x22 ::
        (escaped r.LastAlive ++ 0x22 :: 0x7D :: rest))))))))))))))) =
      some ([(ascii "Name", JValue.string (goString r.Name)),
             (ascii "User", JValue.string (goString r.User)),
             (ascii "IP", JValue.string (goString r.IP)),
             (ascii "X", JValue.string (goString r.X)),
             (ascii "Y", JValue.string (goString r.Y)),
             (ascii "Alive", JValue.string (goString r.Alive)),
             (ascii "LastAlive", JValue.string (goString r.LastAlive))], rest) := by
  obtain ⟨n, rfl⟩ : ∃ n, fuel = n + 1 + 1 + 1 + 1 + 1 + 1 + 1 := ⟨fuel - 7, by omega⟩
  rw [members_step g _ "Name" (by decide) (by decide),
    members_step g _ "User" (by decide) (by decide),
    members_step g _ "IP" (by decide) (by decide),
    members_step g _ "X" (by decide) (by decide),
    members_step g _ "Y" (by decide) (by decide),
    members_step g _ "Alive" (by decide) (by decide),
    members_last g _ "LastAlive" (by decide) (by decide)]
  rfl

/-- An opening brace before a key: the value is the object of the members. -/
theorem value_object (g : Nat) (rest : List Nat) :
    value (g + 1) (0x7B :: 0x22 :: rest) =
      (members (value g) (0x22 :: rest).length (0x22 :: rest)).map
        (fun p => (JValue.object p.1, p.2)) := by
  simp only [value, if_true]
  rw [skipSpace_cons 0x22 _ (by decide)]

/-- The decoder reads the object that the encoder wrote for a record of the
registry as the tree of the record. -/
theorem value_encodeRobot (g : Nat) (r : Robot) (rest : List Nat) :
    value (g + 1 + 1) (encodeRobot r.raw ++ rest) = some (robotTree r.raw, rest) := by
  rw [encodeRobot_raw, value_object (g + 1), members_robot g _ _ r rest]
  · rfl
  · simp only [List.length_cons, List.length_append]
    have h1 : (ascii "Name").length = 4 := by decide
    have h2 : (ascii "User").length = 4 := by decide
    omega

/-- White space is skipped up to the opening brace of a record. -/
theorem skipSpace_encodeRobot (r : Robot) (rest : List Nat) :
    skipSpace (encodeRobot r.raw ++ rest) = encodeRobot r.raw ++ rest := by
  rw [encodeRobot_raw]
  exact skipSpace_cons 0x7B _ (by decide)

/-- The decoder reads the elements of the array that the encoder wrote for the
records of the registry. -/
theorem elements_encodeElems (g : Nat) (rest : List Nat) (rs : List Robot) :
    ∀ (r : Robot) (i fuel : Nat), rs.length + 1 ≤ fuel →
      elements (value (g + 1 + 1)) fuel
          (encodeRobot r.raw ++ (encodeElems (i + 1) (rs.map Robot.raw) ++ 0x5D :: rest)) =
        some (robotTree r.raw :: rs.map (fun r => robotTree r.raw), rest) := by
  induction rs with
  | nil =>
    intro r i fuel hf
    obtain ⟨n, rfl⟩ : ∃ n, fuel = n + 1 := ⟨fuel - 1, by simp at hf; omega⟩
    simp only [List.map_nil, encodeElems, List.nil_append, elements, value_encodeRobot]
    rw [skipSpace_cons 0x5D _ (by decide)]
  | cons r1 rs ih =>
    intro r i fuel hf
    obtain ⟨n, rfl⟩ : ∃ n, fuel = n + 1 := ⟨fuel - 1, by simp at hf; omega⟩
    have hn : rs.length + 1 ≤ n := by simp at hf; omega
    have hi : i + 1 > 0 := by omega
    simp only [List.map_cons, encodeElems, hi, if_true, List.append_assoc, List.cons_append,
      List.nil_append, elements, value_encodeRobot]
    rw [skipSpace_cons 0x2C _ (by decide)]
    simp only []
    rw [skipSpace_encodeRobot, ih r1 (i + 1) n hn]
    rfl

/-- The store of the tree of a record into a fresh element gives the record,
without error. -/
theorem storeRobot_robotTree (x : RawRobot) : storeRobot (robotTree x) = (x, none) := by
  cases x
  rfl

/-- The store of the trees of records into the slice gives the records, without
error. -/
theorem storeElems_robotTree (xs : List RawRobot) :
    storeElems (xs.map robotTree) = (xs, none) := by
  have h : ∀ (acc : List RawRobot),
      (xs.map robotTree).foldl
          (fun acc v => (acc.1 ++ [(storeRobot v).1], saveError acc.2 (storeRobot v).2))
          (acc, none) = (acc ++ xs, none) := by
    induction xs with
    | nil => intro acc; simp
    | cons x xs ih =>
      intro acc
      simp only [List.map_cons, List.foldl_cons, storeRobot_robotTree]
      rw [show saveError none (none : Option JsonError) = none from rfl, ih]
      simp
  simpa [storeElems] using h []

/-- An opening bracket before an object: the value is the array of the
elements, when one more array may be opened. -/
theorem value_array (g : Nat) (rest : List Nat) :
    value (g + 1) (0x5B :: 0x7B :: rest) =
      (elements (value g) (0x7B :: rest).length (0x7B :: rest)).map
        (fun p => (JValue.array p.1, p.2)) := by
  have h1 : ¬ ((0x5B : Nat) = 0x7B) := by decide
  simp only [value, h1, if_false, if_true]
  rw [skipSpace_cons 0x7B _ (by decide)]

/-- The check of what `json.Marshal` wrote for a registry that is not empty
returns the array of the trees of the records. -/
theorem checkValid_Marshal (r : Robot) (rs : List Robot) :
    checkValid (Marshal ((r :: rs).map Robot.raw)) =
      some (JValue.array ((r :: rs).map (fun r => robotTree r.raw))) := by
  have hm : Marshal ((r :: rs).map Robot.raw) =
      0x5B :: (encodeRobot r.raw ++ (encodeElems (0 + 1) (rs.map Robot.raw) ++ 0x5D :: [])) := by
    simp [Marshal, encodeElems]
  have hlen : rs.length + 1 ≤
      (encodeRobot r.raw ++ (encodeElems (0 + 1) (rs.map Robot.raw) ++ 0x5D :: [])).length := by
    have h1 : ∀ (l : List Robot) (i : Nat), l.length ≤ (encodeElems i (l.map Robot.raw)).length := by
      intro l
      induction l with
      | nil => intro i; simp
      | cons a l ih =>
        intro i
        have h2 := ih (i + 1)
        have h3 : 1 ≤ (encodeRobot a.raw).length := by
          have h4 := congrArg List.length (encodeRobot_raw a [])
          simp only [List.append_nil, List.length_cons] at h4
          omega
        simp only [List.map_cons, encodeElems, List.length_append, List.length_cons]
        omega
    have h5 := h1 rs (0 + 1)
    simp only [List.length_append, List.length_cons, List.length_nil]
    omega
  obtain ⟨tl, htl⟩ : ∃ tl, encodeRobot r.raw ++
      (encodeElems (0 + 1) (rs.map Robot.raw) ++ 0x5D :: []) = 0x7B :: tl := by
    rw [encodeRobot_raw]
    exact ⟨_, rfl⟩
  rw [hm]
  unfold checkValid
  rw [skipSpace_cons 0x5B _ (by decide), show maxNestingDepth = 9997 + 1 + 1 + 1 from rfl,
    htl, value_array (9997 + 1 + 1), ← htl, elements_encodeElems 9997 [] rs r 0 _ hlen]
  rfl

/-! ## Persistence: claims on `save` and `load` -/

/-- Function `json.Unmarshal` reads back what `json.Marshal` wrote for records
whose fields are well-formed UTF-8. -/
theorem Unmarshal_Marshal (robots : List Robot) :
    Unmarshal (Marshal (robots.map Robot.raw)) = (robots.map Robot.raw, none) := by
  cases robots with
  | nil => rfl
  | cons r rs =>
    unfold Unmarshal
    rw [checkValid_Marshal]
    simp only []
    have h := storeElems_robotTree ((r :: rs).map Robot.raw)
    rw [List.map_map] at h
    exact h

/-- C12, refuted at a record whose Name is the single byte 0xFF, which is not
UTF-8: `save` writes the name as the escape of U+FFFD, and `load` returns a
record whose Name is the three bytes of U+FFFD. -/
theorem roundtrip_counterexample :
    Marshal [⟨[0xFF], ascii "alice", ascii "10.0.0.1", ascii "1", ascii "2", ascii "true",
        ascii "100"⟩] =
      ascii ("[\x7b\"Name\":\"\\ufffd\",\"User\":\"alice\",\"IP\":\"10.0.0.1\"," ++
        "\"X\":\"1\",\"Y\":\"2\",\"Alive\":\"true\",\"LastAlive\":\"100\"\x7d]") ∧
    (load ".robot_statuses"
        (save [⟨[0xFF], ascii "alice", ascii "10.0.0.1", ascii "1", ascii "2", ascii "true",
          ascii "100"⟩])).1 =
      [⟨[0xEF, 0xBF, 0xBD], ascii "alice", ascii "10.0.0.1", ascii "1", ascii "2",
        ascii "true", ascii "100"⟩] ∧
    (load ".robot_statuses"
        (save [⟨[0xFF], ascii "alice", ascii "10.0.0.1", ascii "1", ascii "2", ascii "true",
          ascii "100"⟩])).1 ≠
      [⟨[0xFF], ascii "alice", ascii "10.0.0.1", ascii "1", ascii "2", ascii "true",
        ascii "100"⟩] := by
  decide

/-- C12, amended. Persistence round trip for well-formed strings: for every
collection of records whose fields are texts, held as their UTF-8 encodings,
`load` of the file that `save` wrote returns the same records, in the same order
with the same bytes in every field, and logs no error; `json.Unmarshal` of what
`json.Marshal` wrote returns them without error. -/
theorem roundtrip_utf8 (file : String) (robots : List Robot) :
    load file (save (robots.map Robot.raw)) = (robots.map Robot.raw, []) ∧
      Unmarshal (Marshal (robots.map Robot.raw)) = (robots.map Robot.raw, none) := by
  refine ⟨?_, Unmarshal_Marshal robots⟩
  simp only [load, save, ReadFile, Unmarshal_Marshal, checkErr]
  rfl

/-! ## Lemmas on the errors of `json.Unmarshal` -/

/-- An array opened where no more may be opened is a syntax error: so are
`room + 1` opening brackets where `room` arrays may be opened. -/
theorem value_too_deep (room : Nat) (rest : List Nat) :
    value room (0x5B :: (List.replicate room 0x5B ++ rest)) = none := by
  have h1 : ¬ ((0x5B : Nat) = 0x7B) := by decide
  induction room with
  | zero => simp only [value, h1, if_false, if_true]
  | succ n ih =>
    have hrep : List.replicate (n + 1) 0x5B ++ rest = 0x5B :: (List.replicate n 0x5B ++ rest) :=
      rfl
    rw [hrep]
    simp only [value, h1, if_false, if_true]
    rw [skipSpace_cons 0x5B _ (by decide)]
    simp only [List.length_cons, elements, ih, Option.map]

/-- The first error kept is an error of the store when both are. -/
theorem storeError_saveError (a b : Option JsonError) (ha : storeError a = true)
    (hb : storeError b = true) : storeError (saveError a b) = true := by
  cases a with
  | none => exact hb
  | some e => exact ha

/-- The store into a field saves an error of the store. -/
theorem storeField_error (r : RawRobot) (f : Field) (v : JValue) :
    storeError (storeField r f v).2 = true := by
  cases v <;> rfl

/-- The store of a member keeps the error an error of the store. -/
theorem storeMember_error (acc : RawRobot × Option JsonError) (m : List Nat × JValue)
    (h : storeError acc.2 = true) : storeError (storeMember acc m).2 = true := by
  unfold storeMember
  cases findField m.1 with
  | none => exact h
  | some f => exact storeError_saveError _ _ h (storeField_error acc.1 f m.2)

/-- The store of the members of an object keeps the error an error of the store. -/
theorem storeMembers_error (ms : List (List Nat × JValue)) :
    ∀ acc : RawRobot × Option JsonError, storeError acc.2 = true →
      storeError (ms.foldl storeMember acc).2 = true := by
  induction ms with
  | nil => intro acc h; exact h
  | cons m ms ih =>
    intro acc h
    exact ih _ (storeMember_error acc m h)

/-- The store into an element saves an error of the store. -/
theorem storeRobot_error (v : JValue) : storeError (storeRobot v).2 = true := by
  cases v with
  | object ms => exact storeMembers_error ms (RawRobot.zero, none) rfl
  | null => rfl
  | bool b => rfl
  | number => rfl
  | string s => rfl
  | array items => rfl

/-- The store of the elements of an array saves an error of the store. -/
theorem storeElems_error (items : List JValue) : storeError (storeElems items).2 = true := by
  have h : ∀ acc : List RawRobot × Option JsonError, storeError acc.2 = true →
      storeError (items.foldl
        (fun acc v => (acc.1 ++ [(storeRobot v).1], saveError acc.2 (storeRobot v).2))
        acc).2 = true := by
    induction items with
    | nil => intro acc h; exact h
    | cons v items ih =>
      intro acc h
      exact ih _ (storeError_saveError _ _ h (storeRobot_error v))
  exact h ([], none) rfl

/-- When `json.Unmarshal` returns a `SyntaxError` or a type error for `[]Robot`,
it has stored nothing. -/
theorem Unmarshal_fst_of_top_error (data : List Nat)
    (h : (Unmarshal data).2 = some JsonError.SyntaxError ∨
      ∃ k, (Unmarshal data).2 = some (JsonError.UnmarshalTypeError k "[]main.Robot")) :
    (Unmarshal data).1 = [] := by
  unfold Unmarshal at h ⊢
  cases hcv : checkValid data with
  | none => rfl
  | some v =>
    cases v with
    | null => rfl
    | bool b => rfl
    | number => rfl
    | string s => rfl
    | object ms => rfl
    | array items =>
      rw [hcv] at h
      simp only [] at h
      have hs := storeElems_error items
      rcases h with h | ⟨k, h⟩
      · rw [h] at hs
        exact absurd hs (by decide)
      · rw [h] at hs
        simp [storeError] at hs

/-- The check rejects arrays opened one deeper than the nesting limit allows. -/
theorem checkValid_too_deep (rest : List Nat) :
    checkValid (0x5B :: (List.replicate maxNestingDepth 0x5B ++ rest)) = none := by
  rw [checkValid, skipSpace_cons 0x5B _ (by decide), value_too_deep]

/-- Function `json.Unmarshal` returns a `SyntaxError` and stores nothing for
arrays nested one deeper than the nesting limit allows. -/
theorem Unmarshal_too_deep :
    Unmarshal (List.replicate (maxNestingDepth + 1) 0x5B ++
      List.replicate (maxNestingDepth + 1) 0x5D) = ([], some JsonError.SyntaxError) := by
  rw [List.replicate_succ, List.cons_append, Unmarshal, checkValid_too_deep]

/-- C13, refuted at a file whose content is `[true]`: `json.Unmarshal` reports a
type error for the element, `load` logs it, and the registry holds one record,
the zero `Robot`. -/
theorem load_failure_counterexample :
    Unmarshal (ascii "[true]") =
      ([RawRobot.zero], some (JsonError.UnmarshalTypeError "bool" "main.Robot")) ∧
    load ".robot_statuses" (FileState.present (ascii "[true]")) =
      ([⟨[], [], [], [], [], [], []⟩],
        ["Error: couldn't unmarshal data read from .robot_statuses"]) ∧
    (load ".robot_statuses" (FileState.present (ascii "[true]"))).1 ≠ [] := by
  decide

/-- C13, amended. Function `load` returns a registry and a log for every state
of the file.  For a missing file it logs both errors and leaves the registry
empty.  Whenever `json.Unmarshal` rejects the bytes read with a `SyntaxError`,
and whenever it reports that their top-level value cannot be stored in
`[]Robot`, the registry is left empty.  A `SyntaxError` is what it returns for no
bytes, for a file cut off in the middle and for arrays nested one deeper than
`maxNestingDepth`, that is 10001 deep; an object at the top is a type error for
`[]Robot`. -/
theorem load_failure_empty (file : String) (f : FileState) :
    (∃ robots log, load file f = (robots, log)) ∧
      load file FileState.missing =
        ([], ["Error: couldn't read from " ++ file,
              "Error: couldn't unmarshal data read from " ++ file]) ∧
      ((Unmarshal (ReadFile f).1).2 = some JsonError.SyntaxError → (load file f).1 = []) ∧
      (∀ k, (Unmarshal (ReadFile f).1).2 =
          some (JsonError.UnmarshalTypeError k "[]main.Robot") → (load file f).1 = []) ∧
      Unmarshal [] = ([], some JsonError.SyntaxError) ∧
      Unmarshal (ascii "[\x7b\"Name\":\"r1\"") = ([], some JsonError.SyntaxError) ∧
      Unmarshal (List.replicate (maxNestingDepth + 1) 0x5B ++
          List.replicate (maxNestingDepth + 1) 0x5D) = ([], some JsonError.SyntaxError) ∧
      Unmarshal (ascii "\x7b\"Name\":\"r1\"\x7d") =
        ([], some (JsonError.UnmarshalTypeError "object" "[]main.Robot")) := by
  have hload : (load file f).1 = (Unmarshal (ReadFile f).1).1 := rfl
  refine ⟨⟨_, _, rfl⟩, rfl, ?_, ?_, by decide, by decide, ?_, by decide⟩
  · intro herr
    rw [hload]
    exact Unmarshal_fst_of_top_error _ (Or.inl herr)
  · intro k herr
    rw [hload]
    exact Unmarshal_fst_of_top_error _ (Or.inr ⟨k, herr⟩)
  · exact Unmarshal_too_deep

/-- C13 amended, at a file cut off after `[1`, which is a syntax error, and at a
file that holds the number `7`, which cannot be stored in `[]Robot`. -/
theorem load_failure_empty_witness :
    (load ".robot_statuses" (FileState.present (ascii "[1"))).1 = [] ∧
      (load ".robot_statuses" (FileState.present (ascii "7"))).1 = [] :=
  ⟨(load_failure_empty ".robot_statuses" (FileState.present (ascii "[1"))).2.2.1 (by decide),
    (load_failure_empty ".robot_statuses" (FileState.present (ascii "7"))).2.2.2.1 "number"
      (by decide)⟩

end Cmass
